import Mathlib

/-!
Verification development for a small directed weighted graph library
(src/main.py).  The library offers vertex/edge insertion, breadth first
traversal, and Dijkstra shortest path queries (single target `dsp` and
all targets `dsp_all`).

Modelling conventions:
* Python values passed to the mutating API are modelled by `PyVal`
  (strings, ints, floats including the non finite ones, and a
  representative of every other type).
* Numeric edge weights are modelled by rationals; a Python float is a
  dyadic rational, and float rounding is not modelled.  The shortest
  path algorithms are embedded on `WGraph`, the graph restricted to
  finite rational weights, which is the input domain of all shortest
  path claims.
* Python dicts are association lists with the dict update semantics
  (overwrite in place, new keys appended).  The heap of `heapq` is
  modelled by its observable behaviour: `heappush` adds an element and
  `heappop` removes a minimal element of the multiset, where pairs are
  ordered lexicographically exactly as Python tuples.
* The while loops of `dsp`, `dsp_all`, `bfs` and the path
  reconstruction are embedded with an explicit fuel parameter; the
  fuel passed by the wrappers is proved sufficient under the claims
  hypotheses (non negative weights), matching Python, whose loops also
  need not terminate outside that domain.
* The raise statements of the source are modelled by error results;
  mutating operations return the state at the moment control leaves
  the function, so that partial mutation would be observable.
-/

/-- Model of a Python float: a finite value (a dyadic rational is in
particular a rational), the two infinities, or nan. -/
inductive PyFloat where
  | finite (q : ℚ)
  | inf
  | ninf
  | nan
deriving DecidableEq

/-- Model of the Python values that can reach the graph API: strings,
ints, floats, and `other`, standing for a value of any other type
(None, lists, ...). -/
inductive PyVal where
  | vstr (s : String)
  | vint (n : ℤ)
  | vfloat (f : PyFloat)
  | other
deriving DecidableEq

/-- String rendering of a float, used by the Python builtin str.  The
non finite cases match Python exactly; the finite case is an
approximate rendering (the claims never exercise float labels). -/
def pyFloatStr : PyFloat → String
  | .finite q => toString q.num ++ "." ++ toString q.den
  | .inf => "inf"
  | .ninf => "-inf"
  | .nan => "nan"

/-- The Python builtin str applied to a `PyVal`. -/
def pyStr : PyVal → String
  | .vstr s => s
  | .vint n => toString n
  | .vfloat f => pyFloatStr f
  | .other => "object"

/-- True for the values accepted by isinstance(x, (str, int, float)). -/
def PyVal.isStrIntFloat : PyVal → Bool
  | .vstr _ => true
  | .vint _ => true
  | .vfloat _ => true
  | .other => false

/-- True for the values accepted by isinstance(x, (int, float)). -/
def PyVal.isNum : PyVal → Bool
  | .vint _ => true
  | .vfloat _ => true
  | _ => false

/-- True for a finite number (an int, or a float that is neither an
infinity nor nan). -/
def PyVal.isFiniteNum : PyVal → Bool
  | .vint _ => true
  | .vfloat (.finite _) => true
  | _ => false

/-- Whitespace in the sense of the Python str.isspace test, restricted
to the ASCII whitespace characters (the claims only exercise spaces). -/
def isSpaceB (c : Char) : Bool :=
  c = ' ' || c = '\t' || c = '\n' || c = '\r' || c = '\x0b' || c = '\x0c'

/-- The Python builtin str.strip(): remove leading and trailing
whitespace. -/
def pyStrip (s : String) : String :=
  ⟨((s.data.dropWhile isSpaceB).reverse.dropWhile isSpaceB).reverse⟩

/-- Error taxonomy of the specification.  The source raises ValueError
everywhere; the message at each raise site distinguishes the cases:
invalidArgument covers "Vertex must be a string or integer", "Vertex
label cannot be empty" and "Weight must be a number", duplicateVertex
covers "Vertex ... already exists", vertexNotFound covers "Both
vertices must exist in the graph" and the missing start/source vertex
messages. -/
inductive GraphError where
  | invalidArgument
  | duplicateVertex
  | vertexNotFound
deriving DecidableEq

/-- The Graph class: `vertices` models the set self._vertices (kept as
a duplicate free list in insertion order) and `adj` models the dict of
dicts self._adj. -/
structure Graph where
  vertices : List String
  adj : List (String × List (String × PyVal))
deriving DecidableEq

/-- The state Graph() produces: no vertices, empty adjacency dict. -/
def Graph.empty : Graph := ⟨[], []⟩

/-- Dict update m[dest] = w on an inner adjacency dict: overwrite in
place if the key exists, append otherwise. -/
def setInner : List (String × PyVal) → String → PyVal → List (String × PyVal)
  | [], d, w => [(d, w)]
  | (k, x) :: rest, d, w =>
    if k = d then (k, w) :: rest else (k, x) :: setInner rest d w

/-- Dict update self._adj[src][dest] = w.  The callers establish that
src is a key of the outer dict. -/
def setEdge : List (String × List (String × PyVal)) → String → String → PyVal →
    List (String × List (String × PyVal))
  | [], _, _, _ => []
  | (k, m) :: rest, s, d, w =>
    if k = s then (k, setInner m d w) :: rest else (k, m) :: setEdge rest s d w

/-- Method add_vertex(label).  The result records the raised error (if
any) together with the state of the graph at the moment control leaves
the method, so a partial mutation on failure would be visible. -/
def Graph.addVertex (g : Graph) (label : PyVal) : Option GraphError × Graph :=
  if ¬ label.isStrIntFloat then (some .invalidArgument, g)
  else
    let l := pyStr label
    if l ∈ g.vertices then (some .duplicateVertex, g)
    else if pyStrip l = "" then (some .invalidArgument, g)
    else (none, ⟨g.vertices ++ [l], g.adj ++ [(l, [])]⟩)

/-- Method add_edge(src, dest, w). -/
def Graph.addEdge (g : Graph) (src dest : PyVal) (w : PyVal) :
    Option GraphError × Graph :=
  let s := pyStr src
  let d := pyStr dest
  if s ∉ g.vertices ∨ d ∉ g.vertices then (some .vertexNotFound, g)
  else if ¬ w.isNum then (some .invalidArgument, g)
  else (none, ⟨g.vertices, setEdge g.adj s d w⟩)

/-- One mutating call. -/
inductive GOp where
  | addV (label : PyVal)
  | addE (src dest w : PyVal)

/-- Run one call, keeping the state it leaves behind whether or not it
raised. -/
def applyOp (g : Graph) : GOp → Graph
  | .addV l => (g.addVertex l).2
  | .addE s d w => (g.addEdge s d w).2

/-- Run a sequence of calls starting from a given graph. -/
def applyOps (g : Graph) (ops : List GOp) : Graph :=
  ops.foldl applyOp g

/-- Weight lookup in an inner adjacency dict. -/
def innerGet : List (String × PyVal) → String → Option PyVal
  | [], _ => none
  | (k, x) :: rest, d => if k = d then some x else innerGet rest d

/-- Keys of the outer adjacency dict. -/
def Graph.adjKeys (g : Graph) : List String := g.adj.map Prod.fst

/-- The destination labels appearing in the inner dicts. -/
def Graph.edgeDests (g : Graph) : List String :=
  (g.adj.map (fun p => p.2.map Prod.fst)).flatten

/-- Structural invariant of claim C8: the adjacency keys are exactly
the vertices, and every stored destination label is a vertex. -/
def Graph.Inv (g : Graph) : Prop :=
  (∀ v, v ∈ g.adjKeys ↔ v ∈ g.vertices) ∧ ∀ d ∈ g.edgeDests, d ∈ g.vertices

/-! The algorithm layer.  `WGraph` is the Graph restricted to finite
numeric weights, modelled as rationals: this is the input domain of
every traversal / shortest path claim.  Field and method names follow
the source. -/

/-- The graph as seen by bfs, dsp and dsp_all: adjacency dict with
finite rational weights. -/
structure WGraph where
  vertices : List String
  adj : List (String × List (String × ℚ))
deriving DecidableEq

/-- Lookup self._adj[v] (the inner dict of a vertex). -/
def WGraph.neighbors (g : WGraph) (v : String) : List (String × ℚ) :=
  match g.adj.find? (fun p => p.1 == v) with
  | some p => p.2
  | none => []

/-- Weight of the edge u -> v if present. -/
def edgeW (g : WGraph) (u v : String) : Option ℚ :=
  match (g.neighbors u).find? (fun p => p.1 == v) with
  | some p => some p.2
  | none => none

/-- Well formedness carried over from the mutation layer: duplicate
free vertices, adjacency keyed exactly by the vertices, duplicate free
inner dicts whose keys are vertices. -/
structure WGraph.WF (g : WGraph) : Prop where
  vertNodup : g.vertices.Nodup
  adjKeysNodup : (g.adj.map Prod.fst).Nodup
  keysIff : ∀ v, v ∈ g.adj.map Prod.fst ↔ v ∈ g.vertices
  innerNodup : ∀ p ∈ g.adj, (p.2.map Prod.fst).Nodup
  innerMem : ∀ p ∈ g.adj, ∀ q ∈ p.2, q.1 ∈ g.vertices

/-- All edge weights are non negative. -/
def WGraph.Nonneg (g : WGraph) : Prop :=
  ∀ p ∈ g.adj, ∀ q ∈ p.2, 0 ≤ q.2

/-- Existence of a directed walk from u to x of total weight q. -/
inductive IsPathLen (g : WGraph) : String → String → ℚ → Prop where
  | refl (v : String) (hv : v ∈ g.vertices) : IsPathLen g v v 0
  | step {u v x : String} {q w : ℚ} (h1 : IsPathLen g u v q)
      (h2 : edgeW g v x = some w) : IsPathLen g u x (q + w)

/-- Reachability along directed edges. -/
def Reachable (g : WGraph) (s t : String) : Prop := ∃ q, IsPathLen g s t q

/-- Total weight of a vertex sequence: defined when consecutive pairs
are edges (and a single vertex exists in the graph), and then equal to
the sum of the traversed edge weights. -/
def pathWeight (g : WGraph) : List String → Option ℚ
  | [] => none
  | [v] => if v ∈ g.vertices then some 0 else none
  | u :: v :: rest =>
    match edgeW g u v, pathWeight g (v :: rest) with
    | some w, some q => some (w + q)
    | _, _ => none

/-- Strict comparison of unicode code points, as Python compares
characters. -/
def charLtB (a b : Char) : Bool := a.val.toNat < b.val.toNat

/-- Lexicographic comparison of code point lists: the order Python
uses on strings. -/
def lexLtB : List Char → List Char → Bool
  | [], [] => false
  | [], _ :: _ => true
  | _ :: _, [] => false
  | a :: as, b :: bs => if a = b then lexLtB as bs else charLtB a b

/-- Python string comparison s1 < s2. -/
def strLtB (a b : String) : Bool := lexLtB a.data b.data

/-- Python string comparison s1 <= s2. -/
def strLeB (a b : String) : Bool := strLtB a b || a == b

/-- Keys of an inner dict in ascending order: sorted(self._adj[v]). -/
def sortedKeys (g : WGraph) (v : String) : List String :=
  List.insertionSort (fun a b => strLeB a b = true) ((g.neighbors v).map Prod.fst)

/-- Inner loop of bfs: enqueue every not yet visited neighbor, marking
it visited at enqueue time. -/
def enqueueAll : List String → List String → List String → List String × List String
  | [], vis, q => (vis, q)
  | n :: rest, vis, q =>
    if n ∈ vis then enqueueAll rest vis q
    else enqueueAll rest (vis ++ [n]) (q ++ [n])

/-- While loop of bfs over an explicit fuel: state is the visited set,
the queue, and the output emitted so far. -/
def bfsLoop (g : WGraph) : ℕ → List String × List String → List String → List String
  | 0, _, out => out
  | fuel + 1, (vis, q), out =>
    match q with
    | [] => out
    | v :: rest =>
      let p := enqueueAll (sortedKeys g v) vis rest
      bfsLoop g fuel p (out ++ [v])

/-- Method bfs(starting_vertex), returning the sequence of yielded
labels.  The fuel bound vertices + 1 is sufficient: every iteration
dequeues one label and each label is enqueued at most once. -/
def WGraph.bfs (g : WGraph) (start : String) : Except GraphError (List String) :=
  if start ∉ g.vertices then .error .vertexNotFound
  else .ok (bfsLoop g (g.vertices.length + 1) ([start], [start]) [])

/-! Dijkstra. -/

/-- Mutable state of dsp / dsp_all: the tentative distances (math.inf
modelled by the top element), the predecessor dict, and the heap
content.  Heap entries are (distance, vertex) pairs; the pushed keys
are always finite, so they are plain rationals. -/
structure DState where
  dist : String → WithTop ℚ
  prev : String → Option String
  pq : List (ℚ × String)

/-- Order in which heapq compares entries: Python tuple order. -/
def pqLe (a b : ℚ × String) : Prop :=
  a.1 < b.1 ∨ (a.1 = b.1 ∧ strLeB a.2 b.2 = true)

instance (a b : ℚ × String) : Decidable (pqLe a b) := by
  unfold pqLe; infer_instance

/-- Observable behaviour of heappop: remove and return a minimal
element in tuple order (equal tuples are interchangeable). -/
def popMin : List (ℚ × String) → Option ((ℚ × String) × List (ℚ × String))
  | [] => none
  | x :: xs =>
    match popMin xs with
    | none => some (x, [])
    | some (m, rest) => if pqLe x m then some (x, xs) else some (m, x :: rest)

/-- The body of a successful relaxation: dist[n] and prev[n] are
assigned and the new entry is pushed. -/
def relaxUpd (d : ℚ) (v n : String) (w : ℚ) (s : DState) : DState :=
  ⟨fun x => if x = n then ((d + w : ℚ) : WithTop ℚ) else s.dist x,
   fun x => if x = n then some v else s.prev x,
   s.pq ++ [(d + w, n)]⟩

/-- Relaxation of the outgoing edges of the popped vertex v with key d:
for each neighbor, if d + weight improves the tentative distance,
update dist and prev and push the new entry. -/
def relaxAll (d : ℚ) (v : String) : List (String × ℚ) → DState → DState
  | [], s => s
  | (n, w) :: rest, s =>
    if ((d + w : ℚ) : WithTop ℚ) < s.dist n then
      relaxAll d v rest (relaxUpd d v n w s)
    else relaxAll d v rest s

/-- While loop of dsp: pop the minimum, skip stale entries, break on
popping dest, otherwise relax the outgoing edges. -/
def dspLoop (g : WGraph) (dest : String) : ℕ → DState → DState
  | 0, s => s
  | fuel + 1, s =>
    match popMin s.pq with
    | none => s
    | some ((d, v), rest) =>
      let s1 : DState := ⟨s.dist, s.prev, rest⟩
      if s1.dist v < (d : WithTop ℚ) then dspLoop g dest fuel s1
      else if v = dest then s1
      else dspLoop g dest fuel (relaxAll d v (g.neighbors v) s1)

/-- While loop of dsp_all: identical to the dsp loop but without the
early break (the source duplicates the code). -/
def dspAllLoop (g : WGraph) : ℕ → DState → DState
  | 0, s => s
  | fuel + 1, s =>
    match popMin s.pq with
    | none => s
    | some ((d, v), rest) =>
      let s1 : DState := ⟨s.dist, s.prev, rest⟩
      if s1.dist v < (d : WithTop ℚ) then dspAllLoop g fuel s1
      else dspAllLoop g fuel (relaxAll d v (g.neighbors v) s1)

/-- Path reconstruction loop: follow prev from curr until None.  The
list is built front first here; the callers reverse it, like the
source. -/
def prevPath (pr : String → Option String) : ℕ → String → List String
  | 0, _ => []
  | fuel + 1, curr =>
    curr :: (match pr curr with
      | none => []
      | some u => prevPath pr fuel u)

/-- Initial Dijkstra state: dist[src] = 0, every other distance
infinite, no predecessors, heap seeded with (0, src). -/
def dspInit (src : String) : DState :=
  ⟨fun v => if v = src then (0 : WithTop ℚ) else ⊤, fun _ => none, [(0, src)]⟩

/-- Iteration bound for the Dijkstra loops, proved sufficient under
non negative weights: 1 + (number of pushes) + 1, where each vertex is
settled at most once and pushes only happen while settling. -/
def dspFuel (g : WGraph) : ℕ :=
  2 + g.vertices.length + (g.adj.map (fun p => p.2.length)).sum

/-- Method dsp(src, dest): returns the distance and the reconstructed
path; (inf, []) when dest is unreachable. -/
def WGraph.dsp (g : WGraph) (src dest : String) :
    Except GraphError (WithTop ℚ × List String) :=
  if src ∉ g.vertices ∨ dest ∉ g.vertices then .error .vertexNotFound
  else
    let s := dspLoop g dest (dspFuel g) (dspInit src)
    if s.dist dest = ⊤ then .ok (⊤, [])
    else .ok (s.dist dest, (prevPath s.prev (g.vertices.length + 1) dest).reverse)

/-- Method dsp_all(src): one full Dijkstra run, then the reconstructed
path for every vertex ([] when unreachable). -/
def WGraph.dspAll (g : WGraph) (src : String) :
    Except GraphError (List (String × List String)) :=
  if src ∉ g.vertices then .error .vertexNotFound
  else
    let s := dspAllLoop g (dspFuel g) (dspInit src)
    .ok (g.vertices.map (fun v =>
      (v, if s.dist v = ⊤ then []
          else (prevPath s.prev (g.vertices.length + 1) v).reverse)))

/-- Dict lookup in the result of dsp_all. -/
def lookupPath (l : List (String × List String)) (v : String) : Option (List String) :=
  match l.find? (fun p => p.1 == v) with
  | some p => some p.2
  | none => none

/-- The graph built by main(): vertices A..F and the ten listed
weighted edges. -/
def exampleGraph : WGraph :=
  ⟨["A", "B", "C", "D", "E", "F"],
   [("A", [("B", 2), ("F", 9)]),
    ("B", [("F", 6), ("D", 15), ("C", 8)]),
    ("C", [("D", 1)]),
    ("D", []),
    ("E", [("C", 7), ("D", 3)]),
    ("F", [("B", 6), ("E", 3)])]⟩

/-! Mutation layer lemmas. -/

/-- Lookup of the weight stored for the ordered pair (s, d). -/
def adjGet (g : Graph) (s d : String) : Option PyVal :=
  match g.adj.find? (fun p => p.1 == s) with
  | some p => innerGet p.2 d
  | none => none

theorem addVertex_fail_eq (g : Graph) (l : PyVal)
    (h : (g.addVertex l).1 ≠ none) : (g.addVertex l).2 = g := by
  simp only [Graph.addVertex] at h ⊢
  split at h
  · simp_all
  · split at h
    · simp_all
    · split at h <;> simp_all

theorem addEdge_fail_eq (g : Graph) (s d w : PyVal)
    (h : (g.addEdge s d w).1 ≠ none) : (g.addEdge s d w).2 = g := by
  simp only [Graph.addEdge] at h ⊢
  split at h
  · simp_all
  · split at h <;> simp_all

theorem setInner_get_self (m : List (String × PyVal)) (d : String) (w : PyVal) :
    innerGet (setInner m d w) d = some w := by
  induction m with
  | nil => simp [setInner, innerGet]
  | cons p rest ih =>
    by_cases h : p.1 = d
    · simp [setInner, innerGet, h]
    · simp [setInner, innerGet, h, ih]

theorem setInner_keys (m : List (String × PyVal)) (d : String) (w : PyVal) :
    ∀ x ∈ (setInner m d w).map Prod.fst, x ∈ m.map Prod.fst ∨ x = d := by
  induction m with
  | nil =>
    intro x hx
    simp only [setInner, List.map_cons, List.map_nil, List.mem_cons,
      List.not_mem_nil, or_false] at hx
    right; exact hx
  | cons p rest ih =>
    obtain ⟨k, xv⟩ := p
    intro x hx
    by_cases h : k = d
    · rw [setInner, if_pos h] at hx
      simp only [List.map_cons, List.mem_cons] at hx
      rcases hx with hx | hx
      · left; simp only [List.map_cons, List.mem_cons]; left; exact hx
      · left; simp only [List.map_cons, List.mem_cons]; right; exact hx
    · rw [setInner, if_neg h] at hx
      simp only [List.map_cons, List.mem_cons] at hx
      rcases hx with hx | hx
      · left; simp only [List.map_cons, List.mem_cons]; left; exact hx
      · rcases ih x hx with h2 | h2
        · left; simp only [List.map_cons, List.mem_cons]; right; exact h2
        · right; exact h2

theorem setEdge_keys (a : List (String × List (String × PyVal))) (s d : String)
    (w : PyVal) : (setEdge a s d w).map Prod.fst = a.map Prod.fst := by
  induction a with
  | nil => simp [setEdge]
  | cons p rest ih =>
    by_cases h : p.1 = s
    · simp [setEdge, h]
    · simp [setEdge, h, ih]

theorem setEdge_get (a : List (String × List (String × PyVal))) (s d : String)
    (w : PyVal) (hs : s ∈ a.map Prod.fst) :
    ∃ m, (setEdge a s d w).find? (fun p => p.1 == s) = some (s, setInner m d w) := by
  induction a with
  | nil => simp at hs
  | cons p rest ih =>
    obtain ⟨k, m0⟩ := p
    by_cases h : k = s
    · refine ⟨m0, ?_⟩
      subst h
      rw [setEdge, if_pos rfl]
      simp [List.find?]
    · have hs2 : s ∈ rest.map Prod.fst := by
        simp only [List.map_cons, List.mem_cons] at hs
        rcases hs with hs | hs
        · exact absurd hs.symm h
        · exact hs
      obtain ⟨m, hm⟩ := ih hs2
      refine ⟨m, ?_⟩
      rw [setEdge, if_neg h]
      simp only [List.find?]
      have hbeq : (k == s) = false := by simp [h]
      rw [hbeq]
      exact hm

theorem setEdge_dests (a : List (String × List (String × PyVal))) (s d : String)
    (w : PyVal) :
    ∀ x ∈ ((setEdge a s d w).map (fun p => p.2.map Prod.fst)).flatten,
      x ∈ (a.map (fun p => p.2.map Prod.fst)).flatten ∨ x = d := by
  induction a with
  | nil => simp [setEdge]
  | cons p rest ih =>
    by_cases h : p.1 = s
    · simp only [setEdge, if_pos h, List.map_cons, List.flatten_cons]
      intro x hx
      rcases List.mem_append.mp hx with hx | hx
      · rcases setInner_keys p.2 d w x hx with h2 | h2
        · left; exact List.mem_append.mpr (Or.inl h2)
        · right; exact h2
      · left; exact List.mem_append.mpr (Or.inr hx)
    · simp only [setEdge, if_neg h, List.map_cons, List.flatten_cons]
      intro x hx
      rcases List.mem_append.mp hx with hx | hx
      · left; exact List.mem_append.mpr (Or.inl hx)
      · rcases ih x hx with h2 | h2
        · left; exact List.mem_append.mpr (Or.inr h2)
        · right; exact h2

theorem Inv_empty : Graph.empty.Inv := by
  constructor
  · intro v; simp [Graph.adjKeys, Graph.empty]
  · intro d hd; simp [Graph.edgeDests, Graph.empty] at hd

theorem addVertex_Inv (g : Graph) (l : PyVal) (hg : g.Inv) :
    ((g.addVertex l).2).Inv := by
  simp only [Graph.addVertex]
  split
  · exact hg
  · split
    · exact hg
    · split
      · exact hg
      · constructor
        · intro v
          have h1 := hg.1 v
          simp only [Graph.adjKeys] at h1 ⊢
          simp only [List.map_append, List.map_cons, List.map_nil, List.mem_append]
          rw [h1]
        · intro x hx
          simp only [Graph.edgeDests, List.map_append, List.flatten_append] at hx
          rcases List.mem_append.mp hx with hx | hx
          · exact List.mem_append.mpr (Or.inl (hg.2 x hx))
          · simp at hx

theorem addEdge_Inv (g : Graph) (s d w : PyVal) (hg : g.Inv) :
    ((g.addEdge s d w).2).Inv := by
  simp only [Graph.addEdge]
  split
  · exact hg
  · split
    · exact hg
    · rename_i hmem _
      constructor
      · intro v
        simp only [Graph.adjKeys, setEdge_keys]
        exact hg.1 v
      · intro x hx
        simp only [Graph.edgeDests] at hx
        rcases setEdge_dests g.adj (pyStr s) (pyStr d) w x hx with h2 | h2
        · exact hg.2 x h2
        · subst h2
          push_neg at hmem
          exact hmem.2

theorem applyOp_Inv (g : Graph) (op : GOp) (hg : g.Inv) : (applyOp g op).Inv := by
  cases op with
  | addV l => exact addVertex_Inv g l hg
  | addE s d w => exact addEdge_Inv g s d w hg

theorem applyOps_Inv (g : Graph) (ops : List GOp) (hg : g.Inv) :
    (applyOps g ops).Inv := by
  induction ops generalizing g with
  | nil => exact hg
  | cons op rest ih => exact ih (applyOp g op) (applyOp_Inv g op hg)

theorem addEdge_stores (g : Graph) (s d w : PyVal)
    (hs : pyStr s ∈ g.vertices) (hd : pyStr d ∈ g.vertices) (hw : w.isNum = true)
    (hk : pyStr s ∈ g.adjKeys) :
    (g.addEdge s d w).1 = none ∧
      adjGet (g.addEdge s d w).2 (pyStr s) (pyStr d) = some w := by
  simp only [Graph.addEdge]
  rw [if_neg (by push_neg; exact ⟨hs, hd⟩), if_neg (by simp [hw])]
  refine ⟨rfl, ?_⟩
  simp only [adjGet]
  obtain ⟨m, hm⟩ := setEdge_get g.adj (pyStr s) (pyStr d) w hk
  rw [hm]
  exact setInner_get_self m (pyStr d) w

theorem addEdge_invalid_iff (g : Graph) (s d w : PyVal)
    (hs : pyStr s ∈ g.vertices) (hd : pyStr d ∈ g.vertices) :
    ((g.addEdge s d w).1 = some .invalidArgument ↔ w.isNum = false) := by
  simp only [Graph.addEdge]
  rw [if_neg (by push_neg; exact ⟨hs, hd⟩)]
  by_cases hw : w.isNum
  · rw [if_neg (by simp [hw])]
    simp [hw]
  · rw [if_pos (by simpa using hw)]
    simpa using hw

/-- A concrete two vertex graph used by several witnesses. -/
def gAB : Graph := ⟨["A", "B"], [("A", []), ("B", [])]⟩

/-- Claim C5: a failed add_vertex or add_edge call leaves the vertex
set and the adjacency mapping exactly as they were: validation happens
before any mutation. -/
theorem c5_failed_calls_leave_graph_unchanged :
    ∀ (g : Graph) (l s d w : PyVal),
      ((g.addVertex l).1 ≠ none → (g.addVertex l).2 = g) ∧
      ((g.addEdge s d w).1 ≠ none → (g.addEdge s d w).2 = g) :=
  fun g l s d w => ⟨addVertex_fail_eq g l, addEdge_fail_eq g s d w⟩

theorem c5_witness :
    (Graph.empty.addVertex PyVal.other).2 = Graph.empty ∧
      (gAB.addEdge (.vstr "A") (.vstr "B") (.vstr "x")).2 = gAB :=
  ⟨(c5_failed_calls_leave_graph_unchanged Graph.empty PyVal.other
      PyVal.other PyVal.other PyVal.other).1 (by decide),
   (c5_failed_calls_leave_graph_unchanged gAB PyVal.other
      (.vstr "A") (.vstr "B") (.vstr "x")).2 (by decide)⟩

/-- Claim C8: starting from the empty graph, any sequence of
add_vertex and add_edge calls (failed calls change nothing) keeps the
invariant that the adjacency keys are exactly the vertex set and every
stored destination label is a vertex. -/
theorem c8_adjacency_invariant : ∀ ops : List GOp, (applyOps Graph.empty ops).Inv :=
  fun ops => applyOps_Inv Graph.empty ops Inv_empty

/-- Claim C10: add_vertex stores a string label exactly as given,
without trimming; it succeeds exactly when the label is new and not
all whitespace; consequently "A" and " A " are two distinct vertices
that can both be added. -/
theorem c10_labels_stored_untrimmed :
    (∀ (g : Graph) (s : String),
      ((g.addVertex (.vstr s)).1 = none ↔ s ∉ g.vertices ∧ ¬ pyStrip s = "") ∧
      ((g.addVertex (.vstr s)).1 = none →
        (g.addVertex (.vstr s)).2 = ⟨g.vertices ++ [s], g.adj ++ [(s, [])]⟩)) ∧
    ((Graph.empty.addVertex (.vstr "A")).2.addVertex (.vstr " A ")).1 = none ∧
    ((Graph.empty.addVertex (.vstr "A")).2.addVertex (.vstr " A ")).2.vertices
        = ["A", " A "] ∧
    "A" ≠ " A " := by
  refine ⟨fun g s => ⟨?_, ?_⟩, by decide, by decide, by decide⟩
  · simp only [Graph.addVertex]
    rw [if_neg (by simp [PyVal.isStrIntFloat])]
    by_cases h1 : s ∈ g.vertices
    · rw [if_pos (by simpa [pyStr] using h1)]
      simp [h1]
    · rw [if_neg (by simpa [pyStr] using h1)]
      by_cases h2 : pyStrip s = ""
      · rw [if_pos (by simpa [pyStr] using h2)]
        simp [h1, h2]
      · rw [if_neg (by simpa [pyStr] using h2)]
        simp [h1, h2]
  · intro h
    simp only [Graph.addVertex] at h ⊢
    rw [if_neg (by simp [PyVal.isStrIntFloat])] at h ⊢
    simp only [pyStr] at h ⊢
    by_cases h1 : s ∈ g.vertices
    · rw [if_pos h1] at h; simp at h
    · rw [if_neg h1] at h ⊢
      by_cases h2 : pyStrip s = ""
      · rw [if_pos h2] at h; simp at h
      · rw [if_neg h2]

theorem c10_witness :
    (Graph.empty.addVertex (.vstr "A")).2 =
      ⟨Graph.empty.vertices ++ ["A"], Graph.empty.adj ++ [("A", [])]⟩ :=
  (c10_labels_stored_untrimmed.1 Graph.empty "A").2 (by decide)

/-- Claim C2 (amended): with both endpoints present, add_edge raises
InvalidArgument exactly when the weight is not an int or float, in
which case nothing is stored; any int or float weight, including the
non finite floats, is accepted and stored. -/
theorem c2_addEdge_weight_check (g : Graph) (s d w : PyVal)
    (hs : pyStr s ∈ g.vertices) (hd : pyStr d ∈ g.vertices) :
    ((g.addEdge s d w).1 = some .invalidArgument ↔ w.isNum = false) ∧
    ((g.addEdge s d w).1 ≠ none → (g.addEdge s d w).2 = g) ∧
    (w.isNum = true → pyStr s ∈ g.adjKeys →
      (g.addEdge s d w).1 = none ∧
      adjGet (g.addEdge s d w).2 (pyStr s) (pyStr d) = some w) :=
  ⟨by
    rcases addEdge_invalid_iff g s d w hs hd with h
    simpa using h,
   addEdge_fail_eq g s d w,
   fun hw hk => addEdge_stores g s d w hs hd hw hk⟩

theorem c2_witness :
    ((gAB.addEdge (.vstr "A") (.vstr "B") PyVal.other).1 =
        some .invalidArgument ↔ (PyVal.other).isNum = false) ∧
    ((gAB.addEdge (.vstr "A") (.vstr "B") PyVal.other).1 ≠ none →
      (gAB.addEdge (.vstr "A") (.vstr "B") PyVal.other).2 = gAB) ∧
    ((PyVal.other).isNum = true → pyStr (.vstr "A") ∈ gAB.adjKeys →
      (gAB.addEdge (.vstr "A") (.vstr "B") PyVal.other).1 = none ∧
      adjGet (gAB.addEdge (.vstr "A") (.vstr "B") PyVal.other).2
        (pyStr (.vstr "A")) (pyStr (.vstr "B")) = some PyVal.other) :=
  c2_addEdge_weight_check gAB (.vstr "A") (.vstr "B") PyVal.other
    (by decide) (by decide)

/-- Claim C2 fails as stated: an infinite float weight is numeric but
not finite, yet add_edge accepts it and stores the edge instead of
raising InvalidArgument. -/
theorem c2_counterexample :
    (gAB.addEdge (.vstr "A") (.vstr "B") (.vfloat .inf)).1 = none ∧
    adjGet (gAB.addEdge (.vstr "A") (.vstr "B") (.vfloat .inf)).2 "A" "B"
      = some (.vfloat .inf) ∧
    (PyVal.vfloat .inf).isFiniteNum = false := by
  refine ⟨by decide, by decide, by decide⟩

theorem dspFuel_succ (g : WGraph) :
    dspFuel g = (1 + g.vertices.length + (g.adj.map (fun p => p.2.length)).sum) + 1 := by
  unfold dspFuel; ring

theorem dsp_self (g : WGraph) (src : String) (hs : src ∈ g.vertices) :
    g.dsp src src = .ok (((0 : ℚ) : WithTop ℚ), [src]) := by
  unfold WGraph.dsp
  rw [if_neg (by push_neg; exact ⟨hs, hs⟩)]
  rw [dspFuel_succ g]
  have hloop : dspLoop g src
      ((1 + g.vertices.length + (g.adj.map (fun p => p.2.length)).sum) + 1)
      (dspInit src) = ⟨(dspInit src).dist, (dspInit src).prev, []⟩ := by
    unfold dspLoop
    have hpop : popMin (dspInit src).pq = some ((0, src), []) := rfl
    rw [hpop]
    dsimp only
    have hcond : ¬ ((⟨(dspInit src).dist, (dspInit src).prev, []⟩ : DState).dist src
        < ((0 : ℚ) : WithTop ℚ)) := by
      simp [dspInit]
    rw [if_neg hcond, if_pos rfl]
  dsimp only
  rw [hloop]
  have hdist : (dspInit src).dist src = ((0 : ℚ) : WithTop ℚ) := by simp [dspInit]
  rw [if_neg (by rw [hdist]; exact WithTop.coe_ne_top)]
  rw [hdist]
  have hpath : prevPath (dspInit src).prev (g.vertices.length + 1) src = [src] := by
    unfold prevPath
    simp [dspInit]
  rw [hpath]
  rfl

/-- Claim C9: on any graph with non negative finite weights, dsp from
an existing vertex to itself returns distance 0 and the single vertex
path. -/
theorem c9_dsp_self (g : WGraph) (src : String) (hnn : g.Nonneg)
    (hs : src ∈ g.vertices) : g.dsp src src = .ok (((0 : ℚ) : WithTop ℚ), [src]) :=
  dsp_self g src hs

theorem c9_witness :
    WGraph.dsp exampleGraph "A" "A" = .ok (((0 : ℚ) : WithTop ℚ), ["A"]) :=
  c9_dsp_self exampleGraph "A" (by unfold WGraph.Nonneg; decide) (by decide)

unseal Rat.add in
/-- Claim C6: on the example graph of main(), dsp A F returns distance
8 along [A, B, F], dsp D A reports unreachability, and bfs from A
yields A first, with B and F appearing later. -/
theorem c6_example_graph_results :
    WGraph.dsp exampleGraph "A" "F" = .ok (((8 : ℚ) : WithTop ℚ), ["A", "B", "F"]) ∧
    WGraph.dsp exampleGraph "D" "A" = .ok (⊤, []) ∧
    WGraph.bfs exampleGraph "A" = .ok ["A", "B", "F", "C", "D", "E"] ∧
    ∃ rest, WGraph.bfs exampleGraph "A" = .ok ("A" :: rest) ∧
      "B" ∈ rest ∧ "F" ∈ rest :=
  ⟨rfl, rfl, rfl, ⟨["B", "F", "C", "D", "E"], rfl, by decide, by decide⟩⟩

/-! Order facts about the embedded Python string comparison. -/

theorem charLtB_iff (a b : Char) : charLtB a b = true ↔ a.val.toNat < b.val.toNat := by
  simp [charLtB]

theorem char_eq_of_toNat_eq {a b : Char} (h : a.val.toNat = b.val.toNat) : a = b :=
  Char.eq_of_val_eq (UInt32.eq_of_toBitVec_eq (BitVec.eq_of_toNat_eq h))

theorem charLtB_trans {a b c : Char} (h1 : charLtB a b = true)
    (h2 : charLtB b c = true) : charLtB a c = true := by
  rw [charLtB_iff] at *
  exact lt_trans h1 h2

theorem charLtB_asymm {a b : Char} (h1 : charLtB a b = true)
    (h2 : charLtB b a = true) : False := by
  rw [charLtB_iff] at *
  exact lt_asymm h1 h2

theorem charLtB_total {a b : Char} (h : ¬ a = b) :
    charLtB a b = true ∨ charLtB b a = true := by
  rw [charLtB_iff, charLtB_iff]
  rcases lt_trichotomy a.val.toNat b.val.toNat with h1 | h1 | h1
  · exact Or.inl h1
  · exact absurd (char_eq_of_toNat_eq h1) h
  · exact Or.inr h1

theorem lexLtB_irrefl : ∀ a : List Char, lexLtB a a = false := by
  intro a
  induction a with
  | nil => rfl
  | cons h t ih => rw [lexLtB, if_pos rfl]; exact ih

theorem lexLtB_trans (a : List Char) :
    ∀ b c, lexLtB a b = true → lexLtB b c = true → lexLtB a c = true := by
  induction a with
  | nil =>
    intro b c hab hbc
    cases b with
    | nil => simp [lexLtB] at hab
    | cons bh bt =>
      cases c with
      | nil => simp [lexLtB] at hbc
      | cons ch ct => simp [lexLtB]
  | cons ah at0 ih =>
    intro b c hab hbc
    cases b with
    | nil => simp [lexLtB] at hab
    | cons bh bt =>
      cases c with
      | nil => simp [lexLtB] at hbc
      | cons ch ct =>
        rw [lexLtB] at hab hbc ⊢
        by_cases h1 : ah = bh
        · rw [if_pos h1] at hab
          by_cases h2 : bh = ch
          · rw [if_pos h2] at hbc
            rw [if_pos (h1.trans h2)]
            exact ih bt ct hab hbc
          · rw [if_neg h2] at hbc
            rw [if_neg (fun he : ah = ch => h2 (h1 ▸ he))]
            rw [h1]
            exact hbc
        · rw [if_neg h1] at hab
          by_cases h2 : bh = ch
          · rw [if_neg (fun he : ah = ch => h1 (he.trans h2.symm))]
            rw [← h2]
            exact hab
          · rw [if_neg h2] at hbc
            have hne : ¬ ah = ch := by
              intro he
              subst he
              exact charLtB_asymm hab hbc
            rw [if_neg hne]
            exact charLtB_trans hab hbc

theorem lexLtB_asymm : ∀ a b : List Char,
    lexLtB a b = true → lexLtB b a = true → False := by
  intro a
  induction a with
  | nil =>
    intro b hab hba
    cases b with
    | nil => simp [lexLtB] at hab
    | cons bh bt => simp [lexLtB] at hba
  | cons ah at0 ih =>
    intro b hab hba
    cases b with
    | nil => simp [lexLtB] at hab
    | cons bh bt =>
      rw [lexLtB] at hab hba
      by_cases h1 : ah = bh
      · rw [if_pos h1] at hab
        rw [if_pos h1.symm] at hba
        exact ih bt hab hba
      · rw [if_neg h1] at hab
        rw [if_neg (fun he : bh = ah => h1 he.symm)] at hba
        exact charLtB_asymm hab hba

theorem lexLtB_connex : ∀ a b : List Char,
    a = b ∨ lexLtB a b = true ∨ lexLtB b a = true := by
  intro a
  induction a with
  | nil =>
    intro b
    cases b with
    | nil => exact Or.inl rfl
    | cons bh bt => right; left; rfl
  | cons ah at0 ih =>
    intro b
    cases b with
    | nil => right; right; rfl
    | cons bh bt =>
      by_cases h1 : ah = bh
      · rcases ih bt with h2 | h2 | h2
        · exact Or.inl (by rw [h1, h2])
        · right; left; rw [lexLtB, if_pos h1]; exact h2
        · right; right; rw [lexLtB, if_pos h1.symm]; exact h2
      · rcases charLtB_total h1 with h2 | h2
        · right; left; rw [lexLtB, if_neg h1]; exact h2
        · right; right; rw [lexLtB, if_neg (fun he : bh = ah => h1 he.symm)]; exact h2

theorem string_data_inj {a b : String} (h : a.data = b.data) : a = b := by
  cases a; cases b; cases h; rfl

theorem strLtB_irrefl (a : String) : strLtB a a = false := lexLtB_irrefl a.data

theorem strLtB_trans {a b c : String} (h1 : strLtB a b = true)
    (h2 : strLtB b c = true) : strLtB a c = true :=
  lexLtB_trans a.data b.data c.data h1 h2

theorem strLtB_asymm {a b : String} (h1 : strLtB a b = true)
    (h2 : strLtB b a = true) : False :=
  lexLtB_asymm a.data b.data h1 h2

theorem strLtB_connex (a b : String) :
    a = b ∨ strLtB a b = true ∨ strLtB b a = true := by
  rcases lexLtB_connex a.data b.data with h | h | h
  · exact Or.inl (string_data_inj h)
  · exact Or.inr (Or.inl h)
  · exact Or.inr (Or.inr h)

theorem strLtB_ne {a b : String} (h : strLtB a b = true) : a ≠ b := by
  intro he
  subst he
  rw [strLtB_irrefl a] at h
  exact Bool.false_ne_true h

theorem strLeB_iff (a b : String) :
    strLeB a b = true ↔ strLtB a b = true ∨ a = b := by
  simp [strLeB]

theorem strLeB_refl (a : String) : strLeB a a = true := by
  rw [strLeB_iff]; exact Or.inr rfl

theorem strLeB_trans : ∀ {a b c : String}, strLeB a b = true →
    strLeB b c = true → strLeB a c = true := by
  intro a b c h1 h2
  rw [strLeB_iff] at *
  rcases h1 with h1 | h1
  · rcases h2 with h2 | h2
    · exact Or.inl (strLtB_trans h1 h2)
    · exact Or.inl (h2 ▸ h1)
  · subst h1
    exact h2

theorem strLeB_total (a b : String) : strLeB a b = true ∨ strLeB b a = true := by
  rcases strLtB_connex a b with h | h | h
  · exact Or.inl (by rw [strLeB_iff]; exact Or.inr h)
  · exact Or.inl (by rw [strLeB_iff]; exact Or.inl h)
  · exact Or.inr (by rw [strLeB_iff]; exact Or.inl h)

theorem strLeB_antisymm {a b : String} (h1 : strLeB a b = true)
    (h2 : strLeB b a = true) : a = b := by
  rw [strLeB_iff] at h1 h2
  rcases h1 with h1 | h1
  · rcases h2 with h2 | h2
    · exact absurd (strLtB_asymm h1 h2) (fun h => h)
    · exact h2.symm
  · exact h1

theorem strLeB_of_lt {a b : String} (h : strLtB a b = true) : strLeB a b = true := by
  rw [strLeB_iff]; exact Or.inl h

theorem strLtB_of_le_ne {a b : String} (h : strLeB a b = true) (hne : a ≠ b) :
    strLtB a b = true := by
  rw [strLeB_iff] at h
  rcases h with h | h
  · exact h
  · exact absurd h hne

instance : IsTotal String (fun a b => strLeB a b = true) := ⟨strLeB_total⟩

instance : IsTrans String (fun a b => strLeB a b = true) := ⟨fun _ _ _ => strLeB_trans⟩

/-! Breadth first search development. -/

/-- Labels adjacent to u (the keys of its inner dict). -/
def neighborKeys (g : WGraph) (u : String) : List String :=
  (g.neighbors u).map Prod.fst

/-- Existence of a directed walk of n edges from s to x (weights are
ignored: traversal distance). -/
inductive NReach (g : WGraph) (s : String) : String → ℕ → Prop where
  | refl (hs : s ∈ g.vertices) : NReach g s s 0
  | step {v x : String} {n : ℕ} (h1 : NReach g s v n)
      (h2 : x ∈ neighborKeys g v) : NReach g s x (n + 1)

/-- Reachability along directed edges, ignoring weights. -/
def EReach (g : WGraph) (s t : String) : Prop := ∃ n, NReach g s t n

/-- Minimal traversal distance (edge count). -/
def BfsDist (g : WGraph) (s t : String) (n : ℕ) : Prop :=
  NReach g s t n ∧ ∀ m, NReach g s t m → n ≤ m

/-- First element of a produced sequence adjacent to x: for x other
than the start this is the vertex that enqueued x. -/
def firstNbr (g : WGraph) (l : List String) (x : String) : Option String :=
  l.find? (fun u => decide (x ∈ neighborKeys g u))

theorem find?_append_left {p : String → Bool} {l1 l2 : List String} {r : String}
    (h : l1.find? p = some r) : (l1 ++ l2).find? p = some r := by
  induction l1 with
  | nil => simp [List.find?] at h
  | cons a t ih =>
    rw [List.cons_append, List.find?]
    rw [List.find?] at h
    cases hp : p a with
    | true => rw [hp] at h; exact h
    | false => rw [hp] at h; exact ih h

theorem pair_sublist_of_sorted {x y : String} {l : List String}
    (hs : List.Pairwise (fun a b => strLeB a b = true) l)
    (hx : x ∈ l) (hy : y ∈ l) (hxy : strLtB x y = true) : List.Sublist [x, y] l := by
  induction l with
  | nil => cases hx
  | cons a t ih =>
    rcases List.mem_cons.mp hx with rfl | hx2
    · have hy2 : y ∈ t := by
        rcases List.mem_cons.mp hy with h | h
        · exact absurd h.symm (strLtB_ne hxy)
        · exact h
      exact List.Sublist.cons₂ x (List.singleton_sublist.mpr hy2)
    · have hy2 : y ∈ t := by
        rcases List.mem_cons.mp hy with h | h
        · exfalso
          have hax : strLeB a x = true := (List.pairwise_cons.mp hs).1 x hx2
          subst h
          rcases strLeB_iff y x |>.mp hax with h2 | h2
          · exact strLtB_asymm hxy h2
          · exact strLtB_ne hxy h2.symm
        · exact h
      exact List.Sublist.cons a (ih (List.pairwise_cons.mp hs).2 hx2 hy2)

theorem neighborKeys_sub (g : WGraph) (hwf : g.WF) (u : String) :
    ∀ n ∈ neighborKeys g u, n ∈ g.vertices := by
  intro n hn
  unfold neighborKeys WGraph.neighbors at hn
  split at hn
  · rename_i p hfind
    rcases List.mem_map.mp hn with ⟨q, hq, hq2⟩
    exact hq2 ▸ hwf.innerMem p (List.mem_of_find?_eq_some hfind) q hq
  · simp at hn

theorem neighborKeys_nodup (g : WGraph) (hwf : g.WF) (u : String) :
    (neighborKeys g u).Nodup := by
  unfold neighborKeys WGraph.neighbors
  split
  · rename_i p hfind
    exact hwf.innerNodup p (List.mem_of_find?_eq_some hfind)
  · simp

theorem sortedKeys_perm (g : WGraph) (v : String) :
    List.Perm (sortedKeys g v) (neighborKeys g v) :=
  List.perm_insertionSort _ _

theorem sortedKeys_mem (g : WGraph) (v x : String) :
    x ∈ sortedKeys g v ↔ x ∈ neighborKeys g v :=
  (sortedKeys_perm g v).mem_iff

theorem sortedKeys_sorted (g : WGraph) (v : String) :
    List.Pairwise (fun a b => strLeB a b = true) (sortedKeys g v) :=
  List.sorted_insertionSort _ _

theorem sortedKeys_nodup (g : WGraph) (hwf : g.WF) (v : String) :
    (sortedKeys g v).Nodup :=
  (sortedKeys_perm g v).nodup_iff.mpr (neighborKeys_nodup g hwf v)

theorem enqueueAll_eq (vis q : List String) :
    ∀ ns : List String, ns.Nodup →
      enqueueAll ns vis q =
        (vis ++ ns.filter (fun n => decide (¬ n ∈ vis)),
         q ++ ns.filter (fun n => decide (¬ n ∈ vis))) := by
  intro ns
  induction ns generalizing vis q with
  | nil => intro _; simp [enqueueAll]
  | cons n t ih =>
    intro hnd
    rw [enqueueAll]
    by_cases h : n ∈ vis
    · rw [if_pos h]
      rw [ih vis q (List.nodup_cons.mp hnd).2]
      simp [h]
    · rw [if_neg h]
      rw [ih (vis ++ [n]) (q ++ [n]) (List.nodup_cons.mp hnd).2]
      have hf : t.filter (fun m => decide (¬ m ∈ vis ++ [n]))
          = t.filter (fun m => decide (¬ m ∈ vis)) := by
        apply List.filter_congr
        intro m hm
        have hmn : m ≠ n := fun he => (List.nodup_cons.mp hnd).1 (he ▸ hm)
        simp [hmn]
      rw [hf]
      simp [h]

/-- Loop invariant of bfs.  vis is the set of enqueued labels, q the
queue, out the labels already yielded, and lvl a ghost labelling
giving the exact traversal distance of every visited label. -/
structure BfsInv (g : WGraph) (start : String) (lvl : String → ℕ)
    (vis q out : List String) : Prop where
  hE : ∀ x, x ∈ vis ↔ (x ∈ out ∨ x ∈ q)
  hNodup : (out ++ q).Nodup
  hVisNodup : vis.Nodup
  hVsub : ∀ x ∈ vis, x ∈ g.vertices
  hStart : start ∈ vis
  hDist : ∀ x ∈ vis, NReach g start x (lvl x) ∧ ∀ m, NReach g start x m → lvl x ≤ m
  hMono : List.Pairwise (fun a b => lvl a ≤ lvl b) (out ++ q)
  hWindow : ∀ a ∈ q, ∀ b ∈ q, lvl b ≤ lvl a + 1
  hClosed : ∀ u ∈ out, ∀ n ∈ neighborKeys g u, n ∈ vis
  hParent : ∀ x ∈ vis, x = start ∨ ∃ u ∈ out, x ∈ neighborKeys g u

theorem BfsInv.q_sub {g start lvl vis q out} (inv : BfsInv g start lvl vis q out) :
    ∀ x ∈ q, x ∈ vis := fun x hx => (inv.hE x).mpr (Or.inr hx)

theorem BfsInv.out_sub {g start lvl vis q out} (inv : BfsInv g start lvl vis q out) :
    ∀ x ∈ out, x ∈ vis := fun x hx => (inv.hE x).mpr (Or.inl hx)

theorem BfsInv.head_min {g start lvl vis rest out v}
    (inv : BfsInv g start lvl vis (v :: rest) out) :
    ∀ w ∈ v :: rest, lvl v ≤ lvl w := by
  intro w hw
  rcases List.mem_cons.mp hw with rfl | hw2
  · exact le_refl _
  · have hq : List.Pairwise (fun a b => lvl a ≤ lvl b) (v :: rest) :=
      (List.pairwise_append.mp inv.hMono).2.1
    exact (List.pairwise_cons.mp hq).1 w hw2

theorem BfsInv.below_head {g start lvl vis rest out v}
    (inv : BfsInv g start lvl vis (v :: rest) out) :
    ∀ m, m ≤ lvl v → ∀ x, NReach g start x m → x ∈ vis := by
  intro m
  induction m using Nat.strong_induction_on with
  | _ m ih =>
    intro hm x hx
    cases hx with
    | refl hs => exact inv.hStart
    | step h1 h2 =>
      rename_i u m2
      have hu : u ∈ vis := ih m2 (Nat.lt_succ_self m2) (by omega) u h1
      rcases (inv.hE u).mp hu with ho | hq
      · exact inv.hClosed u ho x h2
      · exfalso
        have hlu : lvl u ≤ m2 := (inv.hDist u hu).2 m2 h1
        have hvu : lvl v ≤ lvl u := inv.head_min u hq
        omega

theorem BfsInv.complete_of_empty {g start lvl vis out}
    (inv : BfsInv g start lvl vis [] out) :
    ∀ m x, NReach g start x m → x ∈ vis := by
  intro m
  induction m using Nat.strong_induction_on with
  | _ m ih =>
    intro x hx
    cases hx with
    | refl hs => exact inv.hStart
    | step h1 h2 =>
      rename_i u m2
      have hu : u ∈ vis := ih m2 (Nat.lt_succ_self m2) u h1
      rcases (inv.hE u).mp hu with ho | hq
      · exact inv.hClosed u ho x h2
      · simp at hq

theorem BfsInv.vis_len {g start lvl vis q out} (hwf : g.WF)
    (inv : BfsInv g start lvl vis q out) :
    vis.length ≤ g.vertices.length := by
  have h1 : vis.toFinset.card = vis.length := List.toFinset_card_of_nodup inv.hVisNodup
  have h2 : vis.toFinset ⊆ g.vertices.toFinset := by
    intro x hx
    exact List.mem_toFinset.mpr (inv.hVsub x (List.mem_toFinset.mp hx))
  calc vis.length = vis.toFinset.card := h1.symm
    _ ≤ g.vertices.toFinset.card := Finset.card_le_card h2
    _ ≤ g.vertices.length := List.toFinset_card_le _

theorem bfs_step (g : WGraph) (hwf : g.WF) (start : String) (lvl : String → ℕ)
    (vis rest out : List String) (v : String)
    (inv : BfsInv g start lvl vis (v :: rest) out) :
    ∃ ch : List String,
      enqueueAll (sortedKeys g v) vis rest = (vis ++ ch, rest ++ ch) ∧
      (∀ c, c ∈ ch ↔ c ∈ neighborKeys g v ∧ ¬ c ∈ vis) ∧
      List.Pairwise (fun a b => strLeB a b = true) ch ∧
      BfsInv g start (fun x => if x ∈ ch then lvl v + 1 else lvl x)
        (vis ++ ch) (rest ++ ch) (out ++ [v]) := by
  classical
  refine ⟨(sortedKeys g v).filter (fun n => decide (¬ n ∈ vis)), ?_, ?_, ?_, ?_⟩
  · exact enqueueAll_eq vis rest (sortedKeys g v) (sortedKeys_nodup g hwf v)
  · intro c
    rw [List.mem_filter, sortedKeys_mem]
    simp
  · exact List.Pairwise.filter _ (sortedKeys_sorted g v)
  · set ch := (sortedKeys g v).filter (fun n => decide (¬ n ∈ vis)) with hch
    have hvvis : v ∈ vis := inv.q_sub v (List.mem_cons_self v rest)
    have hmemc : ∀ c, c ∈ ch ↔ c ∈ neighborKeys g v ∧ ¬ c ∈ vis := by
      intro c
      rw [hch, List.mem_filter, sortedKeys_mem]
      simp
    have hsorted : List.Pairwise (fun a b => strLeB a b = true) ch :=
      List.Pairwise.filter _ (sortedKeys_sorted g v)
    have hchnodup : ch.Nodup := (sortedKeys_nodup g hwf v).filter _
    have hdisj : ∀ c ∈ ch, ¬ c ∈ vis := fun c hc => ((hmemc c).mp hc).2
    have hl2vis : ∀ x ∈ vis,
        (if x ∈ ch then lvl v + 1 else lvl x) = lvl x := by
      intro x hx
      rw [if_neg (fun hc => hdisj x hc hx)]
    have hl2ch : ∀ c ∈ ch, (if c ∈ ch then lvl v + 1 else lvl c) = lvl v + 1 := by
      intro c hc
      rw [if_pos hc]
    have hhead := inv.head_min
    have hchDist : ∀ c ∈ ch, NReach g start c (lvl v + 1) ∧
        ∀ m, NReach g start c m → lvl v + 1 ≤ m := by
      intro c hc
      rcases (hmemc c).mp hc with ⟨hnbr, hnvis⟩
      constructor
      · exact NReach.step (inv.hDist v hvvis).1 hnbr
      · intro m hm
        by_contra hlt
        exact hnvis (inv.below_head m (by omega) c hm)
    have hassoc : (out ++ [v]) ++ (rest ++ ch) = (out ++ v :: rest) ++ ch := by
      simp
    refine ⟨?_, ?_, ?_, ?_, ?_, ?_, ?_, ?_, ?_, ?_⟩
    · intro x
      have h0 := inv.hE x
      simp only [List.mem_append, List.mem_cons, List.mem_singleton,
        List.not_mem_nil, or_false] at h0 ⊢
      tauto
    · rw [hassoc, List.nodup_append]
      refine ⟨inv.hNodup, hchnodup, ?_⟩
      intro a ha hac
      refine hdisj a hac ((inv.hE a).mpr ?_)
      rcases List.mem_append.mp ha with h | h
      · exact Or.inl h
      · exact Or.inr h
    · rw [List.nodup_append]
      exact ⟨inv.hVisNodup, hchnodup, fun a ha hac => hdisj a hac ha⟩
    · intro x hx
      rcases List.mem_append.mp hx with h | h
      · exact inv.hVsub x h
      · exact neighborKeys_sub g hwf v x ((hmemc x).mp h).1
    · exact List.mem_append.mpr (Or.inl inv.hStart)
    · intro x hx
      rcases List.mem_append.mp hx with h | h
      · rw [hl2vis x h]
        exact inv.hDist x h
      · rw [hl2ch x h]
        exact hchDist x h
    · rw [hassoc, List.pairwise_append]
      refine ⟨?_, ?_, ?_⟩
      · refine List.Pairwise.imp_of_mem ?_ inv.hMono
        intro a b ha hb hab
        have hav : a ∈ vis := (inv.hE a).mpr (by
          rcases List.mem_append.mp ha with h | h
          · exact Or.inl h
          · exact Or.inr h)
        have hbv : b ∈ vis := (inv.hE b).mpr (by
          rcases List.mem_append.mp hb with h | h
          · exact Or.inl h
          · exact Or.inr h)
        rw [hl2vis a hav, hl2vis b hbv]
        exact hab
      · refine List.Pairwise.imp_of_mem ?_ hsorted
        intro a b ha hb _
        rw [hl2ch a ha, hl2ch b hb]
      · intro a ha c hc
        rw [hl2ch c hc]
        have hav : a ∈ vis := (inv.hE a).mpr (by
          rcases List.mem_append.mp ha with h | h
          · exact Or.inl h
          · exact Or.inr (List.mem_cons.mp h |>.elim (fun he => he ▸ List.mem_cons_self v rest) (fun h2 => List.mem_cons.mpr (Or.inr h2))))
        rw [hl2vis a hav]
        rcases List.mem_append.mp ha with h | h
        · have := (List.pairwise_append.mp inv.hMono).2.2 a h v (List.mem_cons_self v rest)
          omega
        · rcases List.mem_cons.mp h with rfl | h2
          · omega
          · have := inv.hWindow v (List.mem_cons_self v rest) a (List.mem_cons.mpr (Or.inr h2))
            omega
    · intro a ha b hb
      rcases List.mem_append.mp ha with ha2 | ha2 <;>
        rcases List.mem_append.mp hb with hb2 | hb2
      · rw [hl2vis a (inv.q_sub a (List.mem_cons.mpr (Or.inr ha2))),
          hl2vis b (inv.q_sub b (List.mem_cons.mpr (Or.inr hb2)))]
        exact inv.hWindow a (List.mem_cons.mpr (Or.inr ha2)) b
          (List.mem_cons.mpr (Or.inr hb2))
      · rw [hl2vis a (inv.q_sub a (List.mem_cons.mpr (Or.inr ha2))), hl2ch b hb2]
        have := hhead a (List.mem_cons.mpr (Or.inr ha2))
        omega
      · rw [hl2ch a ha2, hl2vis b (inv.q_sub b (List.mem_cons.mpr (Or.inr hb2)))]
        have := inv.hWindow v (List.mem_cons_self v rest) b
          (List.mem_cons.mpr (Or.inr hb2))
        omega
      · rw [hl2ch a ha2, hl2ch b hb2]
        omega
    · intro u hu n hn
      rcases List.mem_append.mp hu with hu2 | hu2
      · exact List.mem_append.mpr (Or.inl (inv.hClosed u hu2 n hn))
      · have huv : u = v := by simpa using hu2
        subst huv
        by_cases hnv : n ∈ vis
        · exact List.mem_append.mpr (Or.inl hnv)
        · exact List.mem_append.mpr (Or.inr ((hmemc n).mpr ⟨hn, hnv⟩))
    · intro x hx
      rcases List.mem_append.mp hx with hx2 | hx2
      · rcases inv.hParent x hx2 with h | ⟨u, hu, hedge⟩
        · exact Or.inl h
        · exact Or.inr ⟨u, List.mem_append.mpr (Or.inl hu), hedge⟩
      · exact Or.inr ⟨v, List.mem_append.mpr (Or.inr (by simp)),
          ((hmemc x).mp hx2).1⟩

theorem bfsLoop_spec (g : WGraph) (hwf : g.WF) (start : String) :
    ∀ (fuel : ℕ) (vis q out : List String) (lvl : String → ℕ),
      BfsInv g start lvl vis q out →
      q.length + (g.vertices.length - vis.length) < fuel →
      ∃ (T vis2 : List String) (lvl2 : String → ℕ),
        bfsLoop g fuel (vis, q) out = out ++ T ∧
        q <+: T ∧
        BfsInv g start lvl2 vis2 [] (out ++ T) ∧
        (∀ p x y, p ∈ T → x ≠ start → y ≠ start → strLtB x y = true →
          firstNbr g (out ++ T) x = some p → firstNbr g (out ++ T) y = some p →
          List.Sublist [x, y] (out ++ T)) := by
  intro fuel
  induction fuel with
  | zero =>
    intro vis q out lvl inv hm
    omega
  | succ fuel ih =>
    intro vis q out lvl inv hm
    match q with
    | [] =>
      refine ⟨[], vis, lvl, ?_, List.nil_prefix, ?_, ?_⟩
      · rw [bfsLoop]
        simp
      · rw [List.append_nil]
        exact inv
      · intro p x y hp
        simp at hp
    | v :: rest =>
      obtain ⟨ch, henq, hmemc, hsorted, inv2⟩ :=
        bfs_step g hwf start lvl vis rest out v inv
      have hlen : (vis ++ ch).length ≤ g.vertices.length := inv2.vis_len hwf
      have hm2 : (rest ++ ch).length +
          (g.vertices.length - (vis ++ ch).length) < fuel := by
        simp only [List.length_append, List.length_cons] at *
        omega
      obtain ⟨T2, vis2, lvl2, hrun, hpre, hinv2, hsib⟩ :=
        ih (vis ++ ch) (rest ++ ch) (out ++ [v]) _ inv2 hm2
      have hfinal : (out ++ [v]) ++ T2 = out ++ v :: T2 := by simp
      refine ⟨v :: T2, vis2, lvl2, ?_, ?_, ?_, ?_⟩
      · rw [bfsLoop]
        rw [henq, hrun, hfinal]
      · rcases hpre with ⟨t, ht⟩
        refine ⟨(ch ++ t), ?_⟩
        rw [List.cons_append, ← ht]
        simp
      · rw [← hfinal]
        exact hinv2
      · intro p x y hp hxs hys hxy hfx hfy
        rw [← hfinal] at hfx hfy ⊢
        rcases List.mem_cons.mp hp with rfl | hp2
        · have hvout : ¬ p ∈ out := by
            intro hvo
            have := List.disjoint_of_nodup_append inv.hNodup hvo
            simp at this
          have hxch : x ∈ ch := by
            have hxnbr : x ∈ neighborKeys g p := by
              have := List.find?_some hfx
              simpa using this
            refine (hmemc x).mpr ⟨hxnbr, ?_⟩
            intro hxvis
            rcases inv.hParent x hxvis with h | ⟨u, hu, hedge⟩
            · exact hxs h
            · have hpredu : (fun w => decide (x ∈ neighborKeys g w)) u = true := by
                simpa using hedge
              have hex : ∃ r, List.find? (fun w => decide (x ∈ neighborKeys g w)) out
                  = some r := by
                rw [← Option.isSome_iff_exists, List.find?_isSome]
                exact ⟨u, hu, hpredu⟩
              obtain ⟨r, hr⟩ := hex
              have hrmem : r ∈ out := List.mem_of_find?_eq_some hr
              have hfr : firstNbr g ((out ++ [p]) ++ T2) x = some r := by
                unfold firstNbr
                rw [List.append_assoc]
                exact find?_append_left hr
              rw [hfx] at hfr
              cases hfr
              exact hvout hrmem
          have hych : y ∈ ch := by
            have hynbr : y ∈ neighborKeys g p := by
              have := List.find?_some hfy
              simpa using this
            refine (hmemc y).mpr ⟨hynbr, ?_⟩
            intro hyvis
            rcases inv.hParent y hyvis with h | ⟨u, hu, hedge⟩
            · exact hys h
            · have hpredu : (fun w => decide (y ∈ neighborKeys g w)) u = true := by
                simpa using hedge
              have hex : ∃ r, List.find? (fun w => decide (y ∈ neighborKeys g w)) out
                  = some r := by
                rw [← Option.isSome_iff_exists, List.find?_isSome]
                exact ⟨u, hu, hpredu⟩
              obtain ⟨r, hr⟩ := hex
              have hrmem : r ∈ out := List.mem_of_find?_eq_some hr
              have hfr : firstNbr g ((out ++ [p]) ++ T2) y = some r := by
                unfold firstNbr
                rw [List.append_assoc]
                exact find?_append_left hr
              rw [hfy] at hfr
              cases hfr
              exact hvout hrmem
          have hpair : List.Sublist [x, y] ch :=
            pair_sublist_of_sorted hsorted hxch hych hxy
          have hchT : List.Sublist ch T2 := by
            have h1 : List.Sublist ch (rest ++ ch) := List.sublist_append_right _ _
            exact h1.trans hpre.sublist
          have hTfin : List.Sublist T2 ((out ++ [p]) ++ T2) :=
            List.sublist_append_right _ _
          exact hpair.trans (hchT.trans hTfin)
        · exact hsib p x y hp2 hxs hys hxy hfx hfy

/-- Claim C7: bfs from an existing start yields exactly the vertices
reachable along directed edges, each once; labels appear in order of
non decreasing traversal distance; and two labels first enqueued from
the same parent (their earliest adjacent predecessor in the output)
appear in ascending lexicographic order. -/
theorem c7_bfs_order (g : WGraph) (start : String) (hwf : g.WF)
    (hs : start ∈ g.vertices) :
    ∃ outList : List String,
      g.bfs start = .ok outList ∧
      (∀ x, x ∈ outList ↔ EReach g start x) ∧
      outList.Nodup ∧
      (∀ x y kx ky, List.Sublist [x, y] outList →
        BfsDist g start x kx → BfsDist g start y ky → kx ≤ ky) ∧
      (∀ p x y, x ≠ start → y ≠ start → strLtB x y = true →
        firstNbr g outList x = some p → firstNbr g outList y = some p →
        List.Sublist [x, y] outList) := by
  have hinv0 : BfsInv g start (fun _ => 0) [start] [start] [] := by
    refine ⟨?_, ?_, ?_, ?_, ?_, ?_, ?_, ?_, ?_, ?_⟩
    · intro x; simp
    · simp
    · simp
    · intro x hx
      simp at hx
      subst hx
      exact hs
    · simp
    · intro x hx
      simp at hx
      subst hx
      exact ⟨NReach.refl hs, fun m _ => Nat.zero_le m⟩
    · simp
    · intro a ha b hb
      simp at ha hb
      omega
    · intro u hu
      simp at hu
    · intro x hx
      simp at hx
      exact Or.inl hx
  have hm0 : ([start] : List String).length +
      (g.vertices.length - ([start] : List String).length)
        < g.vertices.length + 1 := by
    have h1 : 1 ≤ g.vertices.length := List.length_pos_of_mem hs
    simp only [List.length_singleton]
    omega
  obtain ⟨T, vis2, lvl2, hrun, hpre, hinv, hsib⟩ :=
    bfsLoop_spec g hwf start (g.vertices.length + 1) [start] [start] []
      (fun _ => 0) hinv0 hm0
  rw [List.nil_append] at hrun hinv hsib
  refine ⟨T, ?_, ?_, ?_, ?_, ?_⟩
  · unfold WGraph.bfs
    rw [if_neg (by simpa using hs), hrun]
  · intro x
    constructor
    · intro hx
      have hxv : x ∈ vis2 := hinv.out_sub x hx
      exact ⟨lvl2 x, (hinv.hDist x hxv).1⟩
    · rintro ⟨m, hm⟩
      have hxv := hinv.complete_of_empty m x hm
      rcases (hinv.hE x).mp hxv with h | h
      · exact h
      · simp at h
  · have h := hinv.hNodup
    simpa using h
  · intro x y kx ky hsub hkx hky
    have hxT : x ∈ T := hsub.subset (List.mem_cons_self x [y])
    have hyT : y ∈ T := hsub.subset (by simp)
    have hp : List.Pairwise (fun a b => lvl2 a ≤ lvl2 b) T := by
      have h := hinv.hMono
      simpa using h
    have hle : lvl2 x ≤ lvl2 y := by
      have hp2 := List.Pairwise.sublist hsub hp
      exact (List.pairwise_cons.mp hp2).1 y (by simp)
    have hxv : x ∈ vis2 := hinv.out_sub x hxT
    have hyv : y ∈ vis2 := hinv.out_sub y hyT
    have hkx2 : kx = lvl2 x :=
      le_antisymm (hkx.2 (lvl2 x) (hinv.hDist x hxv).1)
        ((hinv.hDist x hxv).2 kx hkx.1)
    have hky2 : ky = lvl2 y :=
      le_antisymm (hky.2 (lvl2 y) (hinv.hDist y hyv).1)
        ((hinv.hDist y hyv).2 ky hky.1)
    omega
  · intro p x y hxs hys hxy hfx hfy
    have hpT : p ∈ T := by
      have := List.mem_of_find?_eq_some hfx
      exact this
    exact hsib p x y hpT hxs hys hxy hfx hfy

theorem c7_witness :
    ∃ outList : List String,
      exampleGraph.bfs "A" = .ok outList ∧
      (∀ x, x ∈ outList ↔ EReach exampleGraph "A" x) ∧
      outList.Nodup ∧
      (∀ x y kx ky, List.Sublist [x, y] outList →
        BfsDist exampleGraph "A" x kx → BfsDist exampleGraph "A" y ky → kx ≤ ky) ∧
      (∀ p x y, x ≠ "A" → y ≠ "A" → strLtB x y = true →
        firstNbr exampleGraph outList x = some p →
        firstNbr exampleGraph outList y = some p →
        List.Sublist [x, y] outList) :=
  c7_bfs_order exampleGraph "A"
    ⟨by decide, by decide, fun v => Iff.rfl, by decide, by decide⟩ (by decide)

/-! Dijkstra development: heap order facts. -/

theorem pqLe_refl (a : ℚ × String) : pqLe a a :=
  Or.inr ⟨rfl, strLeB_refl a.2⟩

theorem pqLe_trans {a b c : ℚ × String} (h1 : pqLe a b) (h2 : pqLe b c) :
    pqLe a c := by
  rcases h1 with h1 | ⟨h1, h1s⟩
  · rcases h2 with h2 | ⟨h2, h2s⟩
    · exact Or.inl (lt_trans h1 h2)
    · exact Or.inl (h2 ▸ h1)
  · rcases h2 with h2 | ⟨h2, h2s⟩
    · exact Or.inl (h1 ▸ h2)
    · exact Or.inr ⟨h1.trans h2, strLeB_trans h1s h2s⟩

theorem pqLe_total (a b : ℚ × String) : pqLe a b ∨ pqLe b a := by
  rcases lt_trichotomy a.1 b.1 with h | h | h
  · exact Or.inl (Or.inl h)
  · rcases strLeB_total a.2 b.2 with h2 | h2
    · exact Or.inl (Or.inr ⟨h, h2⟩)
    · exact Or.inr (Or.inr ⟨h.symm, h2⟩)
  · exact Or.inr (Or.inl h)

theorem pqLe_fst {a b : ℚ × String} (h : pqLe a b) : a.1 ≤ b.1 := by
  rcases h with h | ⟨h, _⟩
  · exact le_of_lt h
  · exact le_of_eq h

theorem popMin_none {l : List (ℚ × String)} : popMin l = none ↔ l = [] := by
  cases l with
  | nil => simp [popMin]
  | cons x xs =>
    simp only [popMin]
    rcases h : popMin xs with _ | p
    · simp
    · rcases p with ⟨m, rest⟩
      by_cases h2 : pqLe x m <;> simp [h2]

theorem popMin_perm : ∀ {l : List (ℚ × String)} {m : ℚ × String}
    {rest : List (ℚ × String)}, popMin l = some (m, rest) →
    List.Perm l (m :: rest) := by
  intro l
  induction l with
  | nil => intro m rest h; simp [popMin] at h
  | cons x xs ih =>
    intro m rest h
    rw [popMin] at h
    rcases h2 : popMin xs with _ | p
    · rw [h2] at h
      have hxs : xs = [] := popMin_none.mp h2
      subst hxs
      simp at h
      rw [h.1, h.2]
    · rcases p with ⟨m2, r2⟩
      rw [h2] at h
      dsimp only at h
      by_cases h3 : pqLe x m2
      · rw [if_pos h3] at h
        simp at h
        rw [← h.1, ← h.2]
      · rw [if_neg h3] at h
        simp at h
        rw [← h.1, ← h.2]
        have hperm := ih h2
        exact (hperm.cons x).trans (List.Perm.swap m2 x r2)

theorem popMin_min : ∀ {l : List (ℚ × String)} {m : ℚ × String}
    {rest : List (ℚ × String)}, popMin l = some (m, rest) →
    ∀ x ∈ l, pqLe m x := by
  intro l
  induction l with
  | nil => intro m rest h; simp [popMin] at h
  | cons a xs ih =>
    intro m rest h y hy
    rw [popMin] at h
    rcases h2 : popMin xs with _ | p
    · rw [h2] at h
      have hxs : xs = [] := popMin_none.mp h2
      subst hxs
      simp at h hy
      rw [hy, ← h.1]
      exact pqLe_refl a
    · rcases p with ⟨m2, r2⟩
      rw [h2] at h
      dsimp only at h
      by_cases h3 : pqLe a m2
      · rw [if_pos h3] at h
        simp at h
        rcases List.mem_cons.mp hy with rfl | hy2
        · rw [← h.1]; exact pqLe_refl y
        · rw [← h.1]
          exact pqLe_trans h3 (ih h2 y hy2)
      · rw [if_neg h3] at h
        simp at h
        rcases List.mem_cons.mp hy with rfl | hy2
        · rw [← h.1]
          rcases pqLe_total m2 y with h4 | h4
          · exact h4
          · exact absurd h4 h3
        · rw [← h.1]
          exact ih h2 y hy2

/-! Edge lookup facts. -/

theorem mem_of_edgeW {g : WGraph} {u v : String} {w : ℚ}
    (h : edgeW g u v = some w) : (v, w) ∈ g.neighbors u := by
  unfold edgeW at h
  split at h
  · rename_i p hfind
    have hm := List.mem_of_find?_eq_some hfind
    have hp := List.find?_some hfind
    rcases p with ⟨p1, p2⟩
    simp at hp h
    rw [hp, h] at hm
    exact hm
  · simp at h

theorem edgeW_of_mem {g : WGraph} (hwf : g.WF) {u v : String} {w : ℚ}
    (h : (v, w) ∈ g.neighbors u) : edgeW g u v = some w := by
  unfold edgeW
  have hnd : ((g.neighbors u).map Prod.fst).Nodup := neighborKeys_nodup g hwf u
  rcases hfind : (g.neighbors u).find? (fun p => p.1 == v) with _ | p
  · exfalso
    have := List.find?_eq_none.mp hfind (v, w) h
    simp at this
  · rcases p with ⟨p1, p2⟩
    have hm := List.mem_of_find?_eq_some hfind
    have hp : p1 = v := by simpa using List.find?_some hfind
    subst hp
    have hww : w = p2 := by
      have hinj := List.inj_on_of_nodup_map hnd
      have heq := hinj h hm rfl
      exact congrArg Prod.snd heq
    rw [hfind]
    rw [hww]

theorem edgeW_mem_nbrKeys {g : WGraph} {u v : String} {w : ℚ}
    (h : edgeW g u v = some w) : v ∈ neighborKeys g u := by
  unfold neighborKeys
  exact List.mem_map.mpr ⟨(v, w), mem_of_edgeW h, rfl⟩

theorem neighbors_mem_adj {g : WGraph} {u : String} (h : g.neighbors u ≠ []) :
    ∃ p ∈ g.adj, p.2 = g.neighbors u := by
  unfold WGraph.neighbors at *
  rcases hfind : g.adj.find? (fun p => p.1 == u) with _ | p
  · rw [hfind] at h; simp at h
  · rw [hfind]
    exact ⟨p, List.mem_of_find?_eq_some hfind, rfl⟩

theorem nbr_weight_nonneg {g : WGraph} (hnn : g.Nonneg) {u : String} :
    ∀ q ∈ g.neighbors u, 0 ≤ q.2 := by
  intro q hq
  have hne : g.neighbors u ≠ [] := by
    intro h
    rw [h] at hq
    simp at hq
  obtain ⟨p, hp, hp2⟩ := neighbors_mem_adj hne
  exact hnn p hp q (hp2 ▸ hq)

theorem edgeW_nonneg {g : WGraph} (hnn : g.Nonneg) {u v : String} {w : ℚ}
    (h : edgeW g u v = some w) : 0 ≤ w :=
  nbr_weight_nonneg hnn (v, w) (mem_of_edgeW h)

theorem edgeW_dest_mem {g : WGraph} (hwf : g.WF) {u v : String} {w : ℚ}
    (h : edgeW g u v = some w) : v ∈ g.vertices :=
  neighborKeys_sub g hwf u v (edgeW_mem_nbrKeys h)

theorem isPathLen_nonneg {g : WGraph} (hnn : g.Nonneg) {s t : String} {q : ℚ}
    (h : IsPathLen g s t q) : 0 ≤ q := by
  induction h with
  | refl hv => exact le_refl 0
  | step h1 h2 ih => exact add_nonneg ih (edgeW_nonneg hnn h2)

/-! The predecessor chain of a settled vertex.  The Finset parameter
shrinks along the chain, bounding its length and forbidding repeats. -/

inductive Chain (g : WGraph) (src : String) (pr : String → Option String)
    (ds : String → WithTop ℚ) : Finset String → String → Prop where
  | base {A : Finset String} (h1 : src ∈ A) (h2 : ds src = 0)
      (h3 : pr src = none) : Chain g src pr ds A src
  | step {A : Finset String} {u v : String} {w : ℚ}
      (hv : v ∈ A) (hpr : pr v = some u) (he : edgeW g u v = some w)
      (hd : ds v = ds u + (w : WithTop ℚ))
      (hc : Chain g src pr ds (A.erase v) u) : Chain g src pr ds A v

theorem Chain.mem_self {g src pr ds A v} (h : Chain g src pr ds A v) : v ∈ A := by
  cases h with
  | base h1 _ _ => exact h1
  | step hv _ _ _ _ => exact hv

theorem Chain.mono {g src pr ds} : ∀ {A B : Finset String} {v : String},
    A ⊆ B → Chain g src pr ds A v → Chain g src pr ds B v := by
  intro A B v hAB hc
  induction hc generalizing B with
  | base h1 h2 h3 => exact Chain.base (hAB h1) h2 h3
  | step hv hpr he hd hc ih =>
    exact Chain.step (hAB hv) hpr he hd (ih (Finset.erase_subset_erase _ hAB))

theorem Chain.congr {g src pr ds pr2 ds2} : ∀ {A : Finset String} {v : String},
    (∀ x ∈ A, pr2 x = pr x ∧ ds2 x = ds x) →
    Chain g src pr ds A v → Chain g src pr2 ds2 A v := by
  intro A v hagree hc
  induction hc with
  | base h1 h2 h3 =>
    exact Chain.base h1 ((hagree src h1).2.trans h2) ((hagree src h1).1.trans h3)
  | step hv hpr he hd hc ih =>
    rename_i A2 u v2 w
    have hu : u ∈ A2.erase v2 := hc.mem_self
    refine Chain.step hv ((hagree v2 hv).1.trans hpr) he ?_
      (ih (fun x hx => hagree x (Finset.mem_of_mem_erase hx)))
    rw [(hagree v2 hv).2, (hagree u (Finset.mem_of_mem_erase hu)).2]
    exact hd

theorem withTop_add_coe_eq {x : WithTop ℚ} {w q : ℚ}
    (h : x + (w : WithTop ℚ) = (q : WithTop ℚ)) :
    ∃ xq : ℚ, x = (xq : WithTop ℚ) ∧ xq + w = q := by
  cases x with
  | top =>
    rw [top_add] at h
    exact absurd h.symm WithTop.coe_ne_top
  | coe xq =>
    refine ⟨xq, rfl, ?_⟩
    have h2 : ((xq + w : ℚ) : WithTop ℚ) = (q : WithTop ℚ) := by
      rw [WithTop.coe_add]
      exact h
    exact_mod_cast h2

theorem pathWeight_snoc (g : WGraph) : ∀ (xs : List String) (u v : String)
    (w q : ℚ), xs.getLast? = some u → edgeW g u v = some w →
    v ∈ g.vertices → pathWeight g xs = some q →
    pathWeight g (xs ++ [v]) = some (q + w) := by
  intro xs
  induction xs with
  | nil =>
    intro u v w q hlast _ _ _
    simp at hlast
  | cons a t ih =>
    intro u v w q hlast he hv hw
    cases t with
    | nil =>
      simp at hlast
      subst hlast
      simp only [pathWeight] at hw
      split at hw
      · rename_i ha
        have hq : q = 0 := by simpa using hw.symm
        subst hq
        show pathWeight g [a, v] = some (0 + w)
        simp only [pathWeight]
        rw [he, if_pos hv]
        dsimp only
        rw [add_zero, zero_add]
      · exact absurd hw (by simp)
    | cons b t2 =>
      have hlast2 : (b :: t2).getLast? = some u := by
        rw [List.getLast?_cons_cons] at hlast
        exact hlast
      simp only [pathWeight] at hw
      rcases he1 : edgeW g a b with _ | w1
      · rw [he1] at hw; simp at hw
      · rw [he1] at hw
        rcases hq1 : pathWeight g (b :: t2) with _ | q1
        · rw [hq1] at hw; simp at hw
        · rw [hq1] at hw
          simp at hw
          have hrec := ih u v w q1 hlast2 he hv hq1
          show pathWeight g (a :: b :: (t2 ++ [v])) = some (q + w)
          simp only [pathWeight]
          rw [he1]
          have hrec2 : pathWeight g (b :: (t2 ++ [v])) = some (q1 + w) := by
            simpa using hrec
          rw [hrec2]
          dsimp only
          rw [← hw]
          congr 1
          ring

theorem Chain.toPath {g : WGraph} {src : String} {pr : String → Option String}
    {ds : String → WithTop ℚ} : ∀ {A : Finset String} {v : String},
    Chain g src pr ds A v → (∀ x ∈ A, x ∈ g.vertices) →
    ∃ L : List String,
      L ≠ [] ∧ L.head? = some v ∧ L.getLast? = some src ∧
      L.length ≤ A.card ∧
      (∀ n, L.length ≤ n → prevPath pr n v = L) ∧
      (∀ q : ℚ, ds v = (q : WithTop ℚ) →
        pathWeight g L.reverse = some q ∧ IsPathLen g src v q) := by
  intro A v hc
  induction hc with
  | base h1 h2 h3 =>
    rename_i A3
    intro hA
    refine ⟨[src], by simp, by simp, by simp, ?_, ?_, ?_⟩
    · have hp : 0 < A3.card := Finset.card_pos.mpr ⟨src, h1⟩
      simpa using hp
    · intro n hn
      match n, hn with
      | n + 1, _ =>
        rw [prevPath, h3]
    · intro q hq
      rw [h2] at hq
      have hq0 : q = 0 := by exact_mod_cast hq.symm
      subst hq0
      constructor
      · show pathWeight g [src] = some 0
        simp only [pathWeight]
        rw [if_pos (hA src h1)]
      · exact IsPathLen.refl src (hA src h1)
  | step hv hpr he hd hc ih =>
    rename_i A2 u v2 w
    intro hA
    obtain ⟨L, hLne, hLhead, hLlast, hLlen, hLpath, hLw⟩ :=
      ih (fun x hx => hA x (Finset.mem_of_mem_erase hx))
    refine ⟨v2 :: L, by simp, by simp, ?_, ?_, ?_, ?_⟩
    · cases L with
      | nil => exact absurd rfl hLne
      | cons a t =>
        rw [List.getLast?_cons_cons]
        exact hLlast
    · have hcard : (A2.erase v2).card + 1 = A2.card := Finset.card_erase_add_one hv
      simp only [List.length_cons]
      omega
    · intro n hn
      match n, hn with
      | n + 1, hn =>
        rw [prevPath, hpr]
        congr 1
        exact hLpath n (by simpa using hn)
    · intro q hq
      rw [hd] at hq
      obtain ⟨qu, hqu, hquw⟩ := withTop_add_coe_eq hq
      obtain ⟨hpw, hip⟩ := hLw qu hqu
      constructor
      · show pathWeight g ((v2 :: L).reverse) = some q
        rw [List.reverse_cons]
        have hsnoc := pathWeight_snoc g L.reverse u v2 w qu
          (by rw [List.getLast?_reverse]; exact hLhead) he (hA v2 hv) hpw
        rw [hsnoc, hquw]
      · have hstep := IsPathLen.step hip he
        rwa [hquw] at hstep

/-! Relaxation lemmas. -/

theorem relaxUpd_dist (d : ℚ) (v n : String) (w : ℚ) (s : DState) (x : String) :
    (relaxUpd d v n w s).dist x =
      if x = n then ((d + w : ℚ) : WithTop ℚ) else s.dist x := rfl

theorem relaxUpd_prev (d : ℚ) (v n : String) (w : ℚ) (s : DState) (x : String) :
    (relaxUpd d v n w s).prev x = if x = n then some v else s.prev x := rfl

theorem relaxUpd_pq (d : ℚ) (v n : String) (w : ℚ) (s : DState) :
    (relaxUpd d v n w s).pq = s.pq ++ [(d + w, n)] := rfl

theorem relax_dist_le (d : ℚ) (v : String) :
    ∀ (ns : List (String × ℚ)) (s : DState) (x : String),
      (relaxAll d v ns s).dist x ≤ s.dist x := by
  intro ns
  induction ns with
  | nil => intro s x; exact le_refl _
  | cons nw rest ih =>
    intro s x
    rcases nw with ⟨n, w⟩
    rw [relaxAll]
    split
    · rename_i himp
      refine le_trans (ih _ x) ?_
      rw [relaxUpd_dist]
      by_cases hx : x = n
      · subst hx
        rw [if_pos rfl]
        exact le_of_lt himp
      · rw [if_neg hx]
    · exact ih s x

theorem relax_untouched (d : ℚ) (v : String) :
    ∀ (ns : List (String × ℚ)) (s : DState) (x : String),
      ¬ x ∈ ns.map Prod.fst →
      (relaxAll d v ns s).dist x = s.dist x ∧
      (relaxAll d v ns s).prev x = s.prev x := by
  intro ns
  induction ns with
  | nil => intro s x _; exact ⟨rfl, rfl⟩
  | cons nw rest ih =>
    intro s x hx
    rcases nw with ⟨n, w⟩
    simp only [List.map_cons, List.mem_cons] at hx
    push_neg at hx
    rw [relaxAll]
    split
    · rcases ih (relaxUpd d v n w s) x hx.2 with ⟨h1, h2⟩
      rw [h1, h2, relaxUpd_dist, relaxUpd_prev, if_neg hx.1, if_neg hx.1]
      exact ⟨rfl, rfl⟩
    · exact ih s x hx.2

theorem relax_pq_mono (d : ℚ) (v : String) :
    ∀ (ns : List (String × ℚ)) (s : DState) (p : ℚ × String),
      p ∈ s.pq → p ∈ (relaxAll d v ns s).pq := by
  intro ns
  induction ns with
  | nil => intro s p hp; exact hp
  | cons nw rest ih =>
    intro s p hp
    rcases nw with ⟨n, w⟩
    rw [relaxAll]
    split
    · refine ih (relaxUpd d v n w s) p ?_
      rw [relaxUpd_pq]
      exact List.mem_append.mpr (Or.inl hp)
    · exact ih s p hp

theorem relax_char (d : ℚ) (v : String) :
    ∀ (ns : List (String × ℚ)) (s : DState),
      (ns.map Prod.fst).Nodup →
      ∀ x, ((relaxAll d v ns s).dist x = s.dist x ∧
             (relaxAll d v ns s).prev x = s.prev x) ∨
           (∃ w, (x, w) ∈ ns ∧
             (relaxAll d v ns s).dist x = ((d + w : ℚ) : WithTop ℚ) ∧
             ((d + w : ℚ) : WithTop ℚ) < s.dist x ∧
             (relaxAll d v ns s).prev x = some v ∧
             (d + w, x) ∈ (relaxAll d v ns s).pq) := by
  intro ns
  induction ns with
  | nil => intro s _ x; exact Or.inl ⟨rfl, rfl⟩
  | cons nw rest ih =>
    intro s hnd x
    rcases nw with ⟨n, w0⟩
    simp only [List.map_cons, List.nodup_cons] at hnd
    rw [relaxAll]
    split
    · rename_i himp
      rcases ih (relaxUpd d v n w0 s) hnd.2 x with ⟨h1, h2⟩ | ⟨w, hw, h1, h2, h3, h4⟩
      · by_cases hx : x = n
        · subst hx
          right
          refine ⟨w0, List.mem_cons_self _ _, ?_, himp, ?_, ?_⟩
          · rw [h1, relaxUpd_dist, if_pos rfl]
          · rw [h2, relaxUpd_prev, if_pos rfl]
          · refine relax_pq_mono d v rest (relaxUpd d v x w0 s) _ ?_
            rw [relaxUpd_pq]
            exact List.mem_append.mpr (Or.inr (List.mem_singleton.mpr rfl))
        · left
          rw [h1, h2, relaxUpd_dist, relaxUpd_prev, if_neg hx, if_neg hx]
          exact ⟨rfl, rfl⟩
      · have hxn : x ≠ n := by
          intro he
          subst he
          exact hnd.1 (List.mem_map.mpr ⟨(x, w), hw, rfl⟩)
        right
        refine ⟨w, List.mem_cons.mpr (Or.inr hw), h1, ?_, h3, h4⟩
        rw [relaxUpd_dist, if_neg hxn] at h2
        exact h2
    · rcases ih s hnd.2 x with h | ⟨w, hw, h1, h2, h3, h4⟩
      · exact Or.inl h
      · exact Or.inr ⟨w, List.mem_cons.mpr (Or.inr hw), h1, h2, h3, h4⟩

theorem relax_relaxed (d : ℚ) (v : String) :
    ∀ (ns : List (String × ℚ)) (s : DState),
      (ns.map Prod.fst).Nodup →
      ∀ n1 w1, (n1, w1) ∈ ns →
        (relaxAll d v ns s).dist n1 ≤ ((d + w1 : ℚ) : WithTop ℚ) := by
  intro ns
  induction ns with
  | nil => intro s _ n1 w1 h; simp at h
  | cons nw0 rest ih =>
    intro s hnd n1 w1 hmem
    rcases nw0 with ⟨n, w0⟩
    simp only [List.map_cons, List.nodup_cons] at hnd
    rw [relaxAll]
    rcases List.mem_cons.mp hmem with heq | h2
    · have hn : n1 = n := congrArg Prod.fst heq
      have hw : w1 = w0 := congrArg Prod.snd heq
      subst hn
      subst hw
      split
    -- improved: final dist n1 = d + w1, untouched by the rest
      · have hus := relax_untouched d v rest (relaxUpd d v n1 w1 s) n1 hnd.1
        rw [hus.1, relaxUpd_dist, if_pos rfl]
      · rename_i himp
        have hus := relax_untouched d v rest s n1 hnd.1
        rw [hus.1]
        exact le_of_not_lt himp
    · split
      · exact ih (relaxUpd d v n w0 s) hnd.2 n1 w1 h2
      · exact ih s hnd.2 n1 w1 h2

theorem relax_pq_append (d : ℚ) (v : String) :
    ∀ (ns : List (String × ℚ)) (s : DState),
      (ns.map Prod.fst).Nodup →
      ∃ newE : List (ℚ × String),
        (relaxAll d v ns s).pq = s.pq ++ newE ∧
        (newE.map Prod.snd).Nodup ∧
        newE.length ≤ ns.length ∧
        ∀ p ∈ newE, ∃ w, (p.2, w) ∈ ns ∧ p.1 = d + w ∧
          ((d + w : ℚ) : WithTop ℚ) < s.dist p.2 := by
  intro ns
  induction ns with
  | nil => intro s _; exact ⟨[], by simp [relaxAll], by simp, by simp, by simp⟩
  | cons nw0 rest ih =>
    intro s hnd
    rcases nw0 with ⟨n, w0⟩
    simp only [List.map_cons, List.nodup_cons] at hnd
    rw [relaxAll]
    split
    · rename_i himp
      obtain ⟨newE, h1, h2, h3, h4⟩ := ih (relaxUpd d v n w0 s) hnd.2
      refine ⟨(d + w0, n) :: newE, ?_, ?_, ?_, ?_⟩
      · rw [h1, relaxUpd_pq]
        simp
      · simp only [List.map_cons, List.nodup_cons]
        refine ⟨?_, h2⟩
        intro hc
        rcases List.mem_map.mp hc with ⟨p, hp, hp2⟩
        obtain ⟨w, hw, _, _⟩ := h4 p hp
        exact hnd.1 (List.mem_map.mpr ⟨(p.2, w), hw, by rw [hp2]⟩)
      · simp only [List.length_cons]
        omega
      · intro p hp
        rcases List.mem_cons.mp hp with rfl | hp2
        · exact ⟨w0, List.mem_cons_self _ _, rfl, himp⟩
        · obtain ⟨w, hw, hw2, hw3⟩ := h4 p hp2
          have hpn : p.2 ≠ n := by
            intro he
            exact hnd.1 (List.mem_map.mpr ⟨(p.2, w), hw, he⟩)
          refine ⟨w, List.mem_cons.mpr (Or.inr hw), hw2, ?_⟩
          rw [relaxUpd_dist, if_neg hpn] at hw3
          exact hw3
    · obtain ⟨newE, h1, h2, h3, h4⟩ := ih s hnd.2
      refine ⟨newE, h1, h2, by simp only [List.length_cons]; omega, ?_⟩
      intro p hp
      obtain ⟨w, hw, hw2, hw3⟩ := h4 p hp
      exact ⟨w, List.mem_cons.mpr (Or.inr hw), hw2, hw3⟩

/-- Loop invariant of the Dijkstra runs.  S is the ghost set of
settled vertices: popped with an up to date key and, except for the
early break of dsp, fully relaxed. -/
structure DInv (g : WGraph) (src : String) (S : Finset String) (s : DState) :
    Prop where
  hsrc0 : s.dist src = 0
  hsrcPrev : s.prev src = none
  hSsub : ∀ x ∈ S, x ∈ g.vertices
  hpq : ∀ p ∈ s.pq, p.2 ∈ g.vertices ∧ s.dist p.2 ≤ (p.1 : WithTop ℚ) ∧ 0 ≤ p.1
  hSfin : ∀ x ∈ S, s.dist x ≠ ⊤
  hSlb : ∀ x ∈ S, ∀ p ∈ s.pq, s.dist x ≤ (p.1 : WithTop ℚ)
  hSopt : ∀ x ∈ S, ∀ q : ℚ, IsPathLen g src x q → s.dist x ≤ (q : WithTop ℚ)
  hSrel : ∀ x ∈ S, ∀ nw ∈ g.neighbors x,
    s.dist nw.1 ≤ s.dist x + (nw.2 : WithTop ℚ)
  hEntry : ∀ v, ¬ v ∈ S → s.dist v ≠ ⊤ →
    ∃ dv : ℚ, (dv, v) ∈ s.pq ∧ s.dist v = (dv : WithTop ℚ)
  hSpq : ∀ x ∈ S, ∀ p ∈ s.pq, p.2 = x → s.dist x < (p.1 : WithTop ℚ)
  hKeys : ∀ x, ((s.pq.filter (fun p => p.2 == x)).map Prod.fst).Nodup
  hPrev : ∀ x u, s.prev x = some u → u ∈ S ∧ ∃ w, edgeW g u x = some w ∧
    s.dist x = s.dist u + (w : WithTop ℚ)
  hPrevSome : ∀ x, x ≠ src → s.dist x ≠ ⊤ → ∃ u, s.prev x = some u
  hChain : ∀ x ∈ S, Chain g src s.prev s.dist S x

theorem dspInit_inv (g : WGraph) (src : String) (hs : src ∈ g.vertices) :
    DInv g src ∅ (dspInit src) := by
  refine ⟨?_, ?_, ?_, ?_, ?_, ?_, ?_, ?_, ?_, ?_, ?_, ?_, ?_, ?_⟩
  · simp [dspInit]
  · simp [dspInit]
  · simp
  · intro p hp
    simp only [dspInit, List.mem_singleton] at hp
    subst hp
    refine ⟨hs, ?_, le_refl 0⟩
    simp [dspInit]
  · simp
  · simp
  · simp
  · simp
  · intro v hv hfin
    simp only [dspInit] at hfin ⊢
    by_cases hvs : v = src
    · subst hvs
      refine ⟨0, by simp, by simp⟩
    · rw [if_neg hvs] at hfin
      exact absurd rfl hfin
  · simp
  · intro x
    simp only [dspInit]
    by_cases h : (src == x) <;> simp [List.filter_cons, h]
  · intro x u h
    simp [dspInit] at h
  · intro x hx hfin
    simp only [dspInit] at hfin
    rw [if_neg hx] at hfin
    exact absurd rfl hfin
  · simp

theorem at_pop_opt {g : WGraph} {src : String} {S : Finset String} {s : DState}
    (hwf : g.WF) (hnn : g.Nonneg) (inv : DInv g src S s)
    {d : ℚ} {v : String} {rest : List (ℚ × String)}
    (hpop : popMin s.pq = some ((d, v), rest))
    (hacc : ¬ s.dist v < (d : WithTop ℚ)) :
    ∀ q : ℚ, IsPathLen g src v q → d ≤ q := by
  have hmain : ∀ (y : String) (q : ℚ), IsPathLen g src y q →
      (s.dist y ≤ (q : WithTop ℚ) ∨ d ≤ q) := by
    intro y q hpath
    induction hpath with
    | refl hv =>
      left
      rw [inv.hsrc0]
      exact_mod_cast le_refl (0 : ℚ)
    | step h1 h2 ih =>
      rename_i u2 x2 q1 w
      rcases ih with ih | ih
      · by_cases hyS : u2 ∈ S
        · left
          have hrel := inv.hSrel u2 hyS (x2, w) (mem_of_edgeW h2)
          refine le_trans hrel ?_
          rw [WithTop.coe_add]
          exact add_le_add_right ih _
        · have hfin : s.dist u2 ≠ ⊤ := by
            intro hc
            rw [hc] at ih
            exact absurd (top_le_iff.mp ih) WithTop.coe_ne_top
          obtain ⟨dy, hdy, hdy2⟩ := inv.hEntry u2 hyS hfin
          have hle := popMin_min hpop (dy, u2) hdy
          have hd1 : d ≤ dy := pqLe_fst hle
          have hd2 : dy ≤ q1 := by
            rw [hdy2] at ih
            exact_mod_cast ih
          right
          have hw : 0 ≤ w := edgeW_nonneg hnn h2
          linarith
      · right
        have hw : 0 ≤ w := edgeW_nonneg hnn h2
        linarith
  intro q hq
  rcases hmain v q hq with h | h
  · have hdv : (d : WithTop ℚ) ≤ s.dist v := le_of_not_lt hacc
    have := le_trans hdv h
    exact_mod_cast this
  · exact h

theorem pq_pop_keys {pq rest : List (ℚ × String)} {e : ℚ × String}
    (hperm : List.Perm pq (e :: rest))
    (h : ∀ x, ((pq.filter (fun p => p.2 == x)).map Prod.fst).Nodup) :
    ∀ x, ((rest.filter (fun p => p.2 == x)).map Prod.fst).Nodup := by
  intro x
  have h1 := (hperm.filter (fun p => p.2 == x)).map Prod.fst
  have h2 := h1.nodup_iff.mp (h x)
  rw [List.filter_cons] at h2
  split at h2
  · simp only [List.map_cons, List.nodup_cons] at h2
    exact h2.2
  · exact h2

theorem nodup_keys_of_snd_nodup {l : List (ℚ × String)}
    (h : (l.map Prod.snd).Nodup) (x : String) :
    ((l.filter (fun p => p.2 == x)).map Prod.fst).Nodup := by
  induction l with
  | nil => simp
  | cons a t ih =>
    simp only [List.map_cons, List.nodup_cons] at h
    rw [List.filter_cons]
    split
    · rename_i ha
      have hax : a.2 = x := by simpa using ha
      have hft : t.filter (fun p => p.2 == x) = [] := by
        rw [List.filter_eq_nil_iff]
        intro p hp
        simp only [beq_iff_eq]
        intro hpx
        exact h.1 (List.mem_map.mpr ⟨p, hp, by rw [hpx, hax]⟩)
      rw [hft]
      simp
    · exact ih h.2

theorem stale_step {g : WGraph} {src : String} {S : Finset String} {s : DState}
    (inv : DInv g src S s) {d : ℚ} {v : String} {rest : List (ℚ × String)}
    (hpop : popMin s.pq = some ((d, v), rest))
    (hstale : s.dist v < (d : WithTop ℚ)) :
    DInv g src S ⟨s.dist, s.prev, rest⟩ := by
  have hperm := popMin_perm hpop
  have hrest_sub : ∀ p ∈ rest, p ∈ s.pq :=
    fun p hp => hperm.mem_iff.mpr (List.mem_cons.mpr (Or.inr hp))
  refine ⟨inv.hsrc0, inv.hsrcPrev, inv.hSsub, ?_, inv.hSfin, ?_, inv.hSopt,
    inv.hSrel, ?_, ?_, ?_, inv.hPrev, inv.hPrevSome, inv.hChain⟩
  · exact fun p hp => inv.hpq p (hrest_sub p hp)
  · exact fun x hx p hp => inv.hSlb x hx p (hrest_sub p hp)
  · intro x hxS hfin
    obtain ⟨dx, hdx, hdx2⟩ := inv.hEntry x hxS hfin
    refine ⟨dx, ?_, hdx2⟩
    have hmem : (dx, x) ∈ (d, v) :: rest := hperm.mem_iff.mp hdx
    rcases List.mem_cons.mp hmem with heq | h
    · exfalso
      have hx2 : x = v := congrArg Prod.snd heq
      have hd2 : dx = d := congrArg Prod.fst heq
      subst hx2
      subst hd2
      rw [hdx2] at hstale
      exact lt_irrefl _ hstale
    · exact h
  · exact fun x hx p hp hpx => inv.hSpq x hx p (hrest_sub p hp) hpx
  · exact pq_pop_keys hperm inv.hKeys

theorem accepted_step {g : WGraph} {src : String} {S : Finset String} {s : DState}
    (hwf : g.WF) (hnn : g.Nonneg) (inv : DInv g src S s)
    {d : ℚ} {v : String} {rest : List (ℚ × String)}
    (hpop : popMin s.pq = some ((d, v), rest))
    (hacc : ¬ s.dist v < (d : WithTop ℚ)) :
    ¬ v ∈ S ∧ s.dist v = (d : WithTop ℚ) ∧
    DInv g src (insert v S) (relaxAll d v (g.neighbors v) ⟨s.dist, s.prev, rest⟩) ∧
    (relaxAll d v (g.neighbors v) ⟨s.dist, s.prev, rest⟩).pq.length ≤
      rest.length + (g.neighbors v).length ∧
    (∀ x, x ∈ S ∨ x = v →
      (relaxAll d v (g.neighbors v) ⟨s.dist, s.prev, rest⟩).dist x = s.dist x ∧
      (relaxAll d v (g.neighbors v) ⟨s.dist, s.prev, rest⟩).prev x = s.prev x) := by
  have hperm := popMin_perm hpop
  have hmempq : (d, v) ∈ s.pq := hperm.mem_iff.mpr (List.mem_cons_self _ _)
  have hrest_sub : ∀ p ∈ rest, p ∈ s.pq :=
    fun p hp => hperm.mem_iff.mpr (List.mem_cons.mpr (Or.inr hp))
  have hdv : s.dist v = (d : WithTop ℚ) :=
    le_antisymm (inv.hpq _ hmempq).2.1 (le_of_not_lt hacc)
  have hvS : ¬ v ∈ S := by
    intro hv
    have := inv.hSpq v hv (d, v) hmempq rfl
    rw [hdv] at this
    exact lt_irrefl _ this
  have hd0 : (0 : ℚ) ≤ d := (inv.hpq _ hmempq).2.2
  have hvV : v ∈ g.vertices := (inv.hpq _ hmempq).1
  have hnd : ((g.neighbors v).map Prod.fst).Nodup := neighborKeys_nodup g hwf v
  have hnbrW : ∀ q ∈ g.neighbors v, 0 ≤ q.2 := nbr_weight_nonneg hnn
  obtain ⟨newE, hpq2, hnewnd, hnewlen, hnewchar⟩ :=
    relax_pq_append d v (g.neighbors v) ⟨s.dist, s.prev, rest⟩ hnd
  have hchar := relax_char d v (g.neighbors v) ⟨s.dist, s.prev, rest⟩ hnd
  have hdle := relax_dist_le d v (g.neighbors v) ⟨s.dist, s.prev, rest⟩
  have hrelx := relax_relaxed d v (g.neighbors v) ⟨s.dist, s.prev, rest⟩ hnd
  have hfrozen : ∀ x, x ∈ S ∨ x = v →
      (relaxAll d v (g.neighbors v) ⟨s.dist, s.prev, rest⟩).dist x = s.dist x ∧
      (relaxAll d v (g.neighbors v) ⟨s.dist, s.prev, rest⟩).prev x = s.prev x := by
    intro x hx
    rcases hchar x with h | ⟨w, hw, h1, h2, h3, h4⟩
    · exact h
    · exfalso
      have hw0 : 0 ≤ w := hnbrW (x, w) hw
      rcases hx with hxS | rfl
      · have hlb := inv.hSlb x hxS (d, v) hmempq
        have hdd : (d : WithTop ℚ) ≤ ((d + w : ℚ) : WithTop ℚ) := by
          rw [WithTop.coe_le_coe]
          linarith
        exact absurd h2 (not_lt_of_le (le_trans hlb hdd))
      · have h2b : ((d + w : ℚ) : WithTop ℚ) < (d : WithTop ℚ) := by
          rw [← hdv]
          exact h2
        rw [WithTop.coe_lt_coe] at h2b
        linarith
  have hsrc2 : (relaxAll d v (g.neighbors v) ⟨s.dist, s.prev, rest⟩).dist src = 0 ∧
      (relaxAll d v (g.neighbors v) ⟨s.dist, s.prev, rest⟩).prev src = none := by
    rcases hchar src with h | ⟨w, hw, h1, h2, h3, h4⟩
    · rw [h.1, h.2]
      exact ⟨inv.hsrc0, inv.hsrcPrev⟩
    · exfalso
      have hw0 : 0 ≤ w := hnbrW (src, w) hw
      have h2b : ((d + w : ℚ) : WithTop ℚ) < ((0 : ℚ) : WithTop ℚ) := by
        have h0 : s.dist src = ((0 : ℚ) : WithTop ℚ) := by
          rw [inv.hsrc0]
          norm_cast
        rw [← h0]
        exact h2
      rw [WithTop.coe_lt_coe] at h2b
      linarith
  have hkeyv : ∀ p ∈ rest, p.2 = v → d < p.1 := by
    intro p hp hpv
    have hk := inv.hKeys v
    have h1 := (hperm.filter (fun q => q.2 == v)).map Prod.fst
    have h2 := h1.nodup_iff.mp hk
    rw [List.filter_cons] at h2
    rw [if_pos (by simp)] at h2
    simp only [List.map_cons, List.nodup_cons] at h2
    have hne : p.1 ≠ d := by
      intro he
      refine h2.1 ?_
      refine List.mem_map.mpr ⟨p, ?_, he.symm ▸ rfl⟩
      rw [List.mem_filter]
      exact ⟨hp, by simp [hpv]⟩
    have hle : (d : WithTop ℚ) ≤ (p.1 : WithTop ℚ) := by
      rw [← hdv, ← hpv]
      exact (inv.hpq p (hrest_sub p hp)).2.1
    rw [WithTop.coe_le_coe] at hle
    exact lt_of_le_of_ne hle (fun he => hne he.symm)
  have hoptv := at_pop_opt hwf hnn inv hpop hacc
  refine ⟨hvS, hdv, ?_, ?_, hfrozen⟩
  · refine ⟨hsrc2.1, hsrc2.2, ?_, ?_, ?_, ?_, ?_, ?_, ?_, ?_, ?_, ?_, ?_, ?_⟩
    · intro x hx
      rcases Finset.mem_insert.mp hx with rfl | hxS
      · exact hvV
      · exact inv.hSsub x hxS
    · intro p hp
      rw [hpq2] at hp
      rcases List.mem_append.mp hp with hp | hp
      · obtain ⟨h1, h2, h3⟩ := inv.hpq p (hrest_sub p hp)
        exact ⟨h1, le_trans (hdle p.2) h2, h3⟩
      · obtain ⟨w, hw, hw1, hw2⟩ := hnewchar p hp
        refine ⟨neighborKeys_sub g hwf v p.2
          (List.mem_map.mpr ⟨(p.2, w), hw, rfl⟩), ?_, ?_⟩
        · rw [hw1]
          exact hrelx p.2 w hw
        · have hw0 : 0 ≤ w := hnbrW (p.2, w) hw
          rw [hw1]
          linarith
    · intro x hx
      rcases Finset.mem_insert.mp hx with rfl | hxS
      · rw [(hfrozen x (Or.inr rfl)).1, hdv]
        exact WithTop.coe_ne_top
      · rw [(hfrozen x (Or.inl hxS)).1]
        exact inv.hSfin x hxS
    · intro x hx p hp
      rw [hpq2] at hp
      rcases Finset.mem_insert.mp hx with rfl | hxS
      · rw [(hfrozen x (Or.inr rfl)).1, hdv]
        rcases List.mem_append.mp hp with hp | hp
        · rw [WithTop.coe_le_coe]
          exact pqLe_fst (popMin_min hpop p (hrest_sub p hp))
        · obtain ⟨w, hw, hw1, hw2⟩ := hnewchar p hp
          have hw0 : 0 ≤ w := hnbrW (p.2, w) hw
          rw [hw1, WithTop.coe_le_coe]
          linarith
      · rw [(hfrozen x (Or.inl hxS)).1]
        rcases List.mem_append.mp hp with hp | hp
        · exact inv.hSlb x hxS p (hrest_sub p hp)
        · obtain ⟨w, hw, hw1, hw2⟩ := hnewchar p hp
          have hw0 : 0 ≤ w := hnbrW (p.2, w) hw
          have hlb := inv.hSlb x hxS (d, v) hmempq
          refine le_trans hlb ?_
          rw [hw1, WithTop.coe_le_coe]
          linarith
    · intro x hx q hq
      rcases Finset.mem_insert.mp hx with rfl | hxS
      · rw [(hfrozen x (Or.inr rfl)).1, hdv, WithTop.coe_le_coe]
        exact hoptv q hq
      · rw [(hfrozen x (Or.inl hxS)).1]
        exact inv.hSopt x hxS q hq
    · intro x hx nw hnw
      rcases Finset.mem_insert.mp hx with rfl | hxS
      · rw [(hfrozen x (Or.inr rfl)).1, hdv, ← WithTop.coe_add]
        rcases nw with ⟨n1, w1⟩
        exact hrelx n1 w1 hnw
      · rw [(hfrozen x (Or.inl hxS)).1]
        refine le_trans (hdle nw.1) ?_
        exact inv.hSrel x hxS nw hnw
    · intro x hx hfin
      have hxv : x ≠ v := fun he => hx (he ▸ Finset.mem_insert_self v S)
      have hxS : ¬ x ∈ S := fun h => hx (Finset.mem_insert_of_mem h)
      rcases hchar x with h | ⟨w, hw, h1, h2, h3, h4⟩
      · rw [h.1] at hfin ⊢
        obtain ⟨dx, hdx, hdx2⟩ := inv.hEntry x hxS hfin
        refine ⟨dx, ?_, hdx2⟩
        rw [hpq2]
        refine List.mem_append.mpr (Or.inl ?_)
        have hmem : (dx, x) ∈ (d, v) :: rest := hperm.mem_iff.mp hdx
        rcases List.mem_cons.mp hmem with heq | h5
        · exact absurd (congrArg Prod.snd heq) hxv
        · exact h5
      · exact ⟨d + w, h4, h1⟩
    · intro x hx p hp hpx
      rw [hpq2] at hp
      rcases Finset.mem_insert.mp hx with rfl | hxS
      · rw [(hfrozen x (Or.inr rfl)).1, hdv]
        rcases List.mem_append.mp hp with hp | hp
        · rw [WithTop.coe_lt_coe]
          exact hkeyv p hp hpx
        · exfalso
          obtain ⟨w, hw, hw1, hw2⟩ := hnewchar p hp
          have hw0 : 0 ≤ w := hnbrW (p.2, w) hw
          rw [hpx] at hw2
          dsimp only at hw2
          rw [hdv, WithTop.coe_lt_coe] at hw2
          linarith
      · rw [(hfrozen x (Or.inl hxS)).1]
        rcases List.mem_append.mp hp with hp | hp
        · exact inv.hSpq x hxS p (hrest_sub p hp) hpx
        · exfalso
          obtain ⟨w, hw, hw1, hw2⟩ := hnewchar p hp
          have hw0 : 0 ≤ w := hnbrW (p.2, w) hw
          have hlb := inv.hSlb x hxS (d, v) hmempq
          rw [hpx] at hw2
          have hcon : ((d + w : ℚ) : WithTop ℚ) < ((d + w : ℚ) : WithTop ℚ) := by
            refine lt_of_lt_of_le hw2 ?_
            refine le_trans hlb ?_
            rw [WithTop.coe_le_coe]
            linarith
          exact lt_irrefl _ hcon
    · intro x
      rw [hpq2, List.filter_append, List.map_append]
      rw [List.nodup_append]
      refine ⟨pq_pop_keys hperm inv.hKeys x, nodup_keys_of_snd_nodup hnewnd x, ?_⟩
      intro a ha hb
      rcases List.mem_map.mp ha with ⟨p, hpf, hpa⟩
      rcases List.mem_map.mp hb with ⟨p2, hp2f, hp2a⟩
      rw [List.mem_filter] at hpf hp2f
      obtain ⟨w, hw, hw1, hw2⟩ := hnewchar p2 hp2f.1
      have hps : p.2 = x := by simpa using hpf.2
      have hp2s : p2.2 = x := by simpa using hp2f.2
      have hdist : s.dist x ≤ (p.1 : WithTop ℚ) := by
        rw [← hps]
        exact (inv.hpq p (hrest_sub p hpf.1)).2.1
      rw [hp2s] at hw2
      have : (p2.1 : WithTop ℚ) < (p.1 : WithTop ℚ) := by
        rw [hw1]
        exact lt_of_lt_of_le hw2 hdist
      rw [WithTop.coe_lt_coe] at this
      rw [hpa, hp2a] at this
      exact lt_irrefl _ this
    · intro x u hpr
      rcases hchar x with h | ⟨w, hw, h1, h2, h3, h4⟩
      · rw [h.2] at hpr
        obtain ⟨huS, w, he, hd2⟩ := inv.hPrev x u hpr
        refine ⟨Finset.mem_insert_of_mem huS, w, he, ?_⟩
        rw [h.1, (hfrozen u (Or.inl huS)).1]
        exact hd2
      · rw [h3] at hpr
        cases hpr
        refine ⟨Finset.mem_insert_self v S, w, edgeW_of_mem hwf hw, ?_⟩
        rw [h1, (hfrozen v (Or.inr rfl)).1, hdv, ← WithTop.coe_add]
    · intro x hxsrc hfin
      rcases hchar x with h | ⟨w, hw, h1, h2, h3, h4⟩
      · rw [h.1] at hfin
        obtain ⟨u, hu⟩ := inv.hPrevSome x hxsrc hfin
        exact ⟨u, h.2 ▸ hu⟩
      · exact ⟨v, h3⟩
    · intro x hx
      rcases Finset.mem_insert.mp hx with rfl | hxS
      · by_cases hxsrc : x = src
        · subst hxsrc
          exact Chain.base (Finset.mem_insert_self x S) hsrc2.1 hsrc2.2
        · have hfin : s.dist x ≠ ⊤ := by
            rw [hdv]
            exact WithTop.coe_ne_top
          obtain ⟨u, hu⟩ := inv.hPrevSome x hxsrc hfin
          obtain ⟨huS, w, he, hd2⟩ := inv.hPrev x u hu
          have hcu := inv.hChain u huS
          have hcu2 : Chain g src
              (relaxAll d x (g.neighbors x) ⟨s.dist, s.prev, rest⟩).prev
              (relaxAll d x (g.neighbors x) ⟨s.dist, s.prev, rest⟩).dist S u := by
            refine Chain.congr ?_ hcu
            intro y hy
            exact ⟨(hfrozen y (Or.inl hy)).2, (hfrozen y (Or.inl hy)).1⟩
          refine Chain.step (Finset.mem_insert_self x S) ?_ he ?_ ?_
          · rw [(hfrozen x (Or.inr rfl)).2]
            exact hu
          · rw [(hfrozen x (Or.inr rfl)).1, (hfrozen u (Or.inl huS)).1]
            exact hd2
          · rw [Finset.erase_insert (by simpa using hvS)]
            exact hcu2
      · have hc := inv.hChain x hxS
        have hc2 : Chain g src
            (relaxAll d v (g.neighbors v) ⟨s.dist, s.prev, rest⟩).prev
            (relaxAll d v (g.neighbors v) ⟨s.dist, s.prev, rest⟩).dist S x := by
          refine Chain.congr ?_ hc
          intro y hy
          exact ⟨(hfrozen y (Or.inl hy)).2, (hfrozen y (Or.inl hy)).1⟩
        exact hc2.mono (Finset.subset_insert v S)
  · rw [hpq2, List.length_append]
    have hr : (⟨s.dist, s.prev, rest⟩ : DState).pq.length = rest.length := rfl
    rw [hr]
    omega

/-! Termination measure for the Dijkstra loops. -/

/-- Sum over a list of vertices of one plus the out degree. -/
def degSum (g : WGraph) (l : List String) : ℕ :=
  (l.map (fun v => 1 + (g.neighbors v).length)).sum

/-- The loop measure: pending heap entries, plus for each unsettled
vertex the capacity to be popped once and push its out edges. -/
def dMu (g : WGraph) (S : Finset String) (s : DState) : ℕ :=
  s.pq.length + degSum g (g.vertices.filter (fun v => decide (¬ v ∈ S)))

theorem degSum_cons (g : WGraph) (a : String) (l : List String) :
    degSum g (a :: l) = (1 + (g.neighbors a).length) + degSum g l := by
  simp [degSum]

theorem degSum_filter_insert (g : WGraph) (v : String) (S : Finset String) :
    ∀ l : List String, l.Nodup → v ∈ l → ¬ v ∈ S →
    degSum g (l.filter (fun x => decide (¬ x ∈ S))) =
      degSum g (l.filter (fun x => decide (¬ x ∈ insert v S)))
        + (1 + (g.neighbors v).length) := by
  intro l
  induction l with
  | nil => intro _ hv _; simp at hv
  | cons a t ih =>
    intro hnd hv hvS
    rw [List.nodup_cons] at hnd
    rcases List.mem_cons.mp hv with rfl | hvt
    · rw [List.filter_cons, List.filter_cons]
      rw [if_pos (by simpa using hvS), if_neg (by simp)]
      have ht : t.filter (fun x => decide (¬ x ∈ S)) =
          t.filter (fun x => decide (¬ x ∈ insert v S)) := by
        apply List.filter_congr
        intro x hx
        have hxv : x ≠ v := fun he => hnd.1 (he ▸ hx)
        simp [Finset.mem_insert, hxv]
      rw [ht, degSum_cons]
      ring
    · have hav : a ≠ v := fun he => hnd.1 (he ▸ hvt)
      rw [List.filter_cons, List.filter_cons]
      by_cases ha : a ∈ S
      · rw [if_neg (by simpa using ha), if_neg (by simp [Finset.mem_insert, ha])]
        exact ih hnd.2 hvt hvS
      · rw [if_pos (by simpa using ha),
          if_pos (by simp [Finset.mem_insert, hav, ha])]
        rw [degSum_cons, degSum_cons, ih hnd.2 hvt hvS]
        ring

theorem degSum_eq (g : WGraph) : ∀ l : List String,
    degSum g l = l.length + (l.map (fun v => (g.neighbors v).length)).sum := by
  intro l
  induction l with
  | nil => simp [degSum]
  | cons a t ih =>
    rw [degSum_cons, ih]
    simp only [List.length_cons, List.map_cons, List.sum_cons]
    ring

theorem find?_key_unique : ∀ (l : List (String × List (String × ℚ))),
    (l.map Prod.fst).Nodup → ∀ p ∈ l, l.find? (fun q => q.1 == p.1) = some p := by
  intro l
  induction l with
  | nil => intro _ p hp; simp at hp
  | cons a t ih =>
    intro hnd p hp
    rw [List.map_cons, List.nodup_cons] at hnd
    rcases List.mem_cons.mp hp with rfl | hpt
    · rw [List.find?_cons_of_pos _ (by simp)]
    · have hne2 : a.1 ≠ p.1 := by
        intro he
        exact hnd.1 (he ▸ List.mem_map.mpr ⟨p, hpt, rfl⟩)
      have hfa : (a.1 == p.1) = false := beq_eq_false_iff_ne.mpr hne2
      rw [List.find?_cons]
      simp only [hfa]
      exact ih hnd.2 p hpt

theorem neighbors_of_mem {g : WGraph} (hwf : g.WF)
    {p : String × List (String × ℚ)} (hp : p ∈ g.adj) :
    g.neighbors p.1 = p.2 := by
  unfold WGraph.neighbors
  rw [find?_key_unique g.adj hwf.adjKeysNodup p hp]

theorem degSum_vertices (g : WGraph) (hwf : g.WF) :
    degSum g g.vertices =
      g.vertices.length + (g.adj.map (fun p => p.2.length)).sum := by
  rw [degSum_eq]
  congr 1
  have hperm : List.Perm g.vertices (g.adj.map Prod.fst) := by
    refine (List.perm_ext_iff_of_nodup hwf.vertNodup hwf.adjKeysNodup).mpr ?_
    intro a
    exact (hwf.keysIff a).symm
  have h1 := (hperm.map (fun v => (g.neighbors v).length)).sum_eq
  rw [h1, List.map_map]
  refine congrArg List.sum (List.map_congr_left ?_)
  intro p hp
  show (g.neighbors p.1).length = p.2.length
  rw [neighbors_of_mem hwf hp]

theorem dMu_init (g : WGraph) (hwf : g.WF) (src : String) :
    dMu g ∅ (dspInit src) < dspFuel g := by
  unfold dMu
  have hfilter : g.vertices.filter
      (fun v => decide (¬ v ∈ (∅ : Finset String))) = g.vertices := by
    refine List.filter_eq_self.mpr ?_
    intro a _
    simp
  rw [hfilter, degSum_vertices g hwf]
  have hlen : (dspInit src).pq.length = 1 := rfl
  rw [hlen, dspFuel]
  omega

theorem dMu_stale {g : WGraph} {S : Finset String} {s : DState} {d : ℚ}
    {v : String} {rest : List (ℚ × String)}
    (hpop : popMin s.pq = some ((d, v), rest)) :
    dMu g S ⟨s.dist, s.prev, rest⟩ < dMu g S s := by
  have hlen : s.pq.length = rest.length + 1 := by
    have h := (popMin_perm hpop).length_eq
    simpa using h
  show rest.length + _ < s.pq.length + _
  omega

theorem dMu_accept {g : WGraph} {S : Finset String} {s : DState} {d : ℚ}
    {v : String} {rest : List (ℚ × String)} {s2 : DState} (hwf : g.WF)
    (hpop : popMin s.pq = some ((d, v), rest))
    (hvV : v ∈ g.vertices) (hvS : ¬ v ∈ S)
    (hlen2 : s2.pq.length ≤ rest.length + (g.neighbors v).length) :
    dMu g (insert v S) s2 < dMu g S s := by
  have hlen : s.pq.length = rest.length + 1 := by
    have h := (popMin_perm hpop).length_eq
    simpa using h
  have hd := degSum_filter_insert g v S g.vertices hwf.vertNodup hvV hvS
  unfold dMu
  omega

theorem accept_chain {g : WGraph} {src : String} {S : Finset String} {s : DState}
    (inv : DInv g src S s) {d : ℚ} {v : String}
    (hdv : s.dist v = (d : WithTop ℚ)) (hvS : ¬ v ∈ S) :
    Chain g src s.prev s.dist (insert v S) v := by
  by_cases hvsrc : v = src
  · subst hvsrc
    exact Chain.base (Finset.mem_insert_self v S) inv.hsrc0 inv.hsrcPrev
  · have hfin : s.dist v ≠ ⊤ := by rw [hdv]; exact WithTop.coe_ne_top
    obtain ⟨u, hu⟩ := inv.hPrevSome v hvsrc hfin
    obtain ⟨huS, w, he, hd2⟩ := inv.hPrev v u hu
    refine Chain.step (Finset.mem_insert_self v S) hu he hd2 ?_
    rw [Finset.erase_insert (by simpa using hvS)]
    exact inv.hChain u huS

theorem terminal_opt {g : WGraph} {src : String} {S : Finset String} {s : DState}
    (inv : DInv g src S s) (hpq : s.pq = []) :
    ∀ (v : String) (q : ℚ), IsPathLen g src v q → s.dist v ≤ (q : WithTop ℚ) := by
  intro v q hq
  induction hq with
  | refl hv =>
    rw [inv.hsrc0]
    exact_mod_cast le_refl (0 : ℚ)
  | step h1 h2 ih =>
    rename_i u2 x2 q1 w
    have hfin : s.dist u2 ≠ ⊤ := by
      intro hc
      rw [hc] at ih
      exact absurd (top_le_iff.mp ih) WithTop.coe_ne_top
    have huS : u2 ∈ S := by
      by_contra hns
      obtain ⟨dv, hdv, _⟩ := inv.hEntry u2 hns hfin
      rw [hpq] at hdv
      simp at hdv
    have hrel := inv.hSrel u2 huS (x2, w) (mem_of_edgeW h2)
    refine le_trans hrel ?_
    rw [WithTop.coe_add]
    exact add_le_add_right ih _

theorem dspAllLoop_frozen {g : WGraph} {src : String} (hwf : g.WF)
    (hnn : g.Nonneg) :
    ∀ (fuel : ℕ) (S : Finset String) (s : DState), DInv g src S s →
    ∀ x ∈ S, (dspAllLoop g fuel s).dist x = s.dist x ∧
             (dspAllLoop g fuel s).prev x = s.prev x := by
  intro fuel
  induction fuel with
  | zero =>
    intro S s inv x hx
    exact ⟨rfl, rfl⟩
  | succ fuel ih =>
    intro S s inv x hx
    rw [dspAllLoop]
    rcases hpop : popMin s.pq with _ | ⟨⟨d, v⟩, rest⟩
    · exact ⟨rfl, rfl⟩
    · dsimp only
      by_cases hstale : s.dist v < (d : WithTop ℚ)
      · rw [if_pos hstale]
        exact ih S ⟨s.dist, s.prev, rest⟩ (stale_step inv hpop hstale) x hx
      · rw [if_neg hstale]
        obtain ⟨hvS, hdv, inv2, hlen, hfroz⟩ := accepted_step hwf hnn inv hpop hstale
        obtain ⟨h1, h2⟩ := ih (insert v S) _ inv2 x (Finset.mem_insert_of_mem hx)
        obtain ⟨h3, h4⟩ := hfroz x (Or.inl hx)
        exact ⟨h1.trans h3, h2.trans h4⟩

theorem prevPath_agree {g : WGraph} {src : String} {pr : String → Option String}
    {ds : String → WithTop ℚ} {pr2 : String → Option String} :
    ∀ {A : Finset String} {v : String}, Chain g src pr ds A v →
    (∀ x ∈ A, pr2 x = pr x) →
    ∀ n : ℕ, prevPath pr2 n v = prevPath pr n v := by
  intro A v hc
  induction hc with
  | base h1 h2 h3 =>
    intro hagree n
    cases n with
    | zero => rfl
    | succ n =>
      simp only [prevPath]
      rw [hagree src h1, h3]
  | step hv hpr he hd hc ih =>
    rename_i A2 u v2 w
    intro hagree n
    cases n with
    | zero => rfl
    | succ n =>
      simp only [prevPath]
      rw [hagree v2 hv, hpr]
      show v2 :: prevPath pr2 n u = v2 :: prevPath pr n u
      rw [ih (fun x hx => hagree x (Finset.mem_of_mem_erase hx)) n]

theorem dsp_master {g : WGraph} {src dest : String} (hwf : g.WF)
    (hnn : g.Nonneg) :
    ∀ (fuel : ℕ) (S : Finset String) (s : DState), DInv g src S s →
      dMu g S s < fuel →
      (∀ q : ℚ, IsPathLen g src dest q →
        (dspLoop g dest fuel s).dist dest ≤ (q : WithTop ℚ)) ∧
      ((dspLoop g dest fuel s).dist dest ≠ ⊤ →
        ∃ A : Finset String, (∀ x ∈ A, x ∈ g.vertices) ∧
          Chain g src (dspLoop g dest fuel s).prev
            (dspLoop g dest fuel s).dist A dest) ∧
      (dspAllLoop g fuel s).dist dest = (dspLoop g dest fuel s).dist dest ∧
      (∀ n : ℕ, prevPath (dspAllLoop g fuel s).prev n dest =
        prevPath (dspLoop g dest fuel s).prev n dest) := by
  intro fuel
  induction fuel with
  | zero =>
    intro S s inv hmu
    exact absurd hmu (Nat.not_lt_zero _)
  | succ fuel ih =>
    intro S s inv hmu
    rw [dspLoop, dspAllLoop]
    rcases hpop : popMin s.pq with _ | ⟨⟨d, v⟩, rest⟩
    · have hpqe : s.pq = [] := popMin_none.mp hpop
      refine ⟨?_, ?_, rfl, fun n => rfl⟩
      · intro q hq
        exact terminal_opt inv hpqe dest q hq
      · intro hfin
        have hdS : dest ∈ S := by
          by_contra hns
          obtain ⟨dv, hdv, _⟩ := inv.hEntry dest hns hfin
          rw [hpqe] at hdv
          simp at hdv
        exact ⟨S, inv.hSsub, inv.hChain dest hdS⟩
    · dsimp only
      by_cases hstale : s.dist v < (d : WithTop ℚ)
      · rw [if_pos hstale, if_pos hstale]
        exact ih S ⟨s.dist, s.prev, rest⟩ (stale_step inv hpop hstale)
          (lt_of_lt_of_le (dMu_stale hpop) (Nat.lt_succ_iff.mp hmu))
      · rw [if_neg hstale, if_neg hstale]
        obtain ⟨hvS, hdv, inv2, hlen, hfroz⟩ :=
          accepted_step hwf hnn inv hpop hstale
        have hvV : v ∈ g.vertices :=
          (inv.hpq _ ((popMin_perm hpop).mem_iff.mpr
            (List.mem_cons_self _ _))).1
        have hmu2 : dMu g (insert v S)
            (relaxAll d v (g.neighbors v) ⟨s.dist, s.prev, rest⟩) < fuel :=
          lt_of_lt_of_le (dMu_accept hwf hpop hvV hvS hlen)
            (Nat.lt_succ_iff.mp hmu)
        by_cases hvdest : v = dest
        · rw [if_pos hvdest]
          have hchainD : Chain g src s.prev s.dist (insert v S) v :=
            accept_chain inv hdv hvS
          subst hvdest
          refine ⟨?_, ?_, ?_, ?_⟩
          · intro q hq
            show s.dist v ≤ (q : WithTop ℚ)
            rw [hdv, WithTop.coe_le_coe]
            exact at_pop_opt hwf hnn inv hpop hstale q hq
          · intro _
            refine ⟨insert v S, ?_, hchainD⟩
            intro x hx
            rcases Finset.mem_insert.mp hx with rfl | hxS
            · exact hvV
            · exact inv.hSsub x hxS
          · have hf := dspAllLoop_frozen hwf hnn fuel (insert v S) _ inv2 v
              (Finset.mem_insert_self v S)
            rw [hf.1, (hfroz v (Or.inr rfl)).1]
          · intro n
            have hagree : ∀ x ∈ insert v S,
                (dspAllLoop g fuel
                  (relaxAll d v (g.neighbors v) ⟨s.dist, s.prev, rest⟩)).prev x
                  = s.prev x := by
              intro x hx
              have hf := dspAllLoop_frozen hwf hnn fuel (insert v S) _ inv2 x hx
              rw [hf.2]
              rcases Finset.mem_insert.mp hx with rfl | hxS
              · exact (hfroz x (Or.inr rfl)).2
              · exact (hfroz x (Or.inl hxS)).2
            exact prevPath_agree hchainD hagree n
        · rw [if_neg hvdest]
          exact ih (insert v S) _ inv2 hmu2

theorem exampleGraph_WF : exampleGraph.WF :=
  ⟨by decide, by decide, fun v => Iff.rfl, by decide, by decide⟩

theorem exampleGraph_nonneg : exampleGraph.Nonneg := by
  unfold WGraph.Nonneg
  decide

/-- Claim C1: on a graph with non negative finite weights, whenever
dsp(src, dest) returns a finite distance q with a path p, p starts at
src, ends at dest, consecutive pairs of p are edges whose weights sum
to q (this is what pathWeight computes), the distance q is attained by
a directed walk, and no directed walk from src to dest is shorter. -/
theorem c1_dsp_shortest_path {g : WGraph} {src dest : String}
    (hwf : g.WF) (hnn : g.Nonneg)
    (hs : src ∈ g.vertices) (hd : dest ∈ g.vertices)
    {q : ℚ} {p : List String}
    (hr : g.dsp src dest = .ok ((q : WithTop ℚ), p)) :
    p.head? = some src ∧ p.getLast? = some dest ∧
    pathWeight g p = some q ∧ IsPathLen g src dest q ∧
    ∀ q2 : ℚ, IsPathLen g src dest q2 → q ≤ q2 := by
  obtain ⟨hopt, hchain, _, _⟩ :=
    @dsp_master g src dest hwf hnn (dspFuel g) ∅ (dspInit src)
      (dspInit_inv g src hs) (dMu_init g hwf src)
  unfold WGraph.dsp at hr
  rw [if_neg (by push_neg; exact ⟨hs, hd⟩)] at hr
  dsimp only at hr
  by_cases hT : (dspLoop g dest (dspFuel g) (dspInit src)).dist dest = ⊤
  · rw [if_pos hT] at hr
    simp only [Except.ok.injEq, Prod.mk.injEq] at hr
    exact absurd hr.1.symm WithTop.coe_ne_top
  · rw [if_neg hT] at hr
    simp only [Except.ok.injEq, Prod.mk.injEq] at hr
    obtain ⟨A, hA, hc⟩ := hchain hT
    obtain ⟨L, hLne, hLhead, hLlast, hLlen, hLpath, hLw⟩ := hc.toPath hA
    have hAcard : A.card ≤ g.vertices.length := by
      have hsub : A ⊆ g.vertices.toFinset :=
        fun x hx => List.mem_toFinset.mpr (hA x hx)
      exact le_trans (Finset.card_le_card hsub) g.vertices.toFinset_card_le
    have hfix : prevPath (dspLoop g dest (dspFuel g) (dspInit src)).prev
        (g.vertices.length + 1) dest = L := hLpath _ (by omega)
    have hp : p = L.reverse := by
      rw [← hr.2, hfix]
    obtain ⟨hpw, hip⟩ := hLw q hr.1
    subst hp
    refine ⟨?_, ?_, hpw, hip, ?_⟩
    · rw [List.head?_reverse]
      exact hLlast
    · rw [List.getLast?_reverse]
      exact hLhead
    · intro q2 hq2
      have h1 := hopt q2 hq2
      rw [hr.1, WithTop.coe_le_coe] at h1
      exact h1

unseal Rat.add in
theorem c1_witness :
    WGraph.dsp exampleGraph "A" "F" = .ok (((8 : ℚ) : WithTop ℚ), ["A", "B", "F"]) ∧
    (["A", "B", "F"] : List String).head? = some "A" ∧
    (["A", "B", "F"] : List String).getLast? = some "F" ∧
    pathWeight exampleGraph ["A", "B", "F"] = some 8 ∧
    IsPathLen exampleGraph "A" "F" 8 ∧
    (∀ q2 : ℚ, IsPathLen exampleGraph "A" "F" q2 → 8 ≤ q2) := by
  have hr : WGraph.dsp exampleGraph "A" "F"
      = .ok (((8 : ℚ) : WithTop ℚ), ["A", "B", "F"]) := rfl
  obtain ⟨h1, h2, h3, h4, h5⟩ := c1_dsp_shortest_path exampleGraph_WF
    exampleGraph_nonneg (by decide) (by decide) hr
  exact ⟨hr, h1, h2, h3, h4, h5⟩

/-- Claim C4: on a graph with non negative finite weights and existing
endpoints, dsp(src, dest) returns (infinity, empty path) exactly when
no directed walk leads from src to dest. -/
theorem c4_dsp_unreachable {g : WGraph} {src dest : String}
    (hwf : g.WF) (hnn : g.Nonneg)
    (hs : src ∈ g.vertices) (hd : dest ∈ g.vertices) :
    g.dsp src dest = .ok ((⊤ : WithTop ℚ), ([] : List String)) ↔
      ¬ Reachable g src dest := by
  obtain ⟨hopt, hchain, _, _⟩ :=
    @dsp_master g src dest hwf hnn (dspFuel g) ∅ (dspInit src)
      (dspInit_inv g src hs) (dMu_init g hwf src)
  have hTiff : (dspLoop g dest (dspFuel g) (dspInit src)).dist dest = ⊤ ↔
      ¬ Reachable g src dest := by
    constructor
    · intro hT hreach
      obtain ⟨q2, hq2⟩ := hreach
      have h1 := hopt q2 hq2
      rw [hT] at h1
      exact absurd (top_le_iff.mp h1) WithTop.coe_ne_top
    · intro hnr
      by_contra hT
      obtain ⟨A, hA, hc⟩ := hchain hT
      rcases hdd : (dspLoop g dest (dspFuel g) (dspInit src)).dist dest with _ | qd
      · exact hT hdd
      · obtain ⟨L, _, _, _, _, _, hLw⟩ := hc.toPath hA
        obtain ⟨_, hip⟩ := hLw qd hdd
        exact hnr ⟨qd, hip⟩
  unfold WGraph.dsp
  rw [if_neg (by push_neg; exact ⟨hs, hd⟩)]
  dsimp only
  constructor
  · intro heq
    by_cases hT : (dspLoop g dest (dspFuel g) (dspInit src)).dist dest = ⊤
    · exact hTiff.mp hT
    · rw [if_neg hT] at heq
      simp only [Except.ok.injEq, Prod.mk.injEq] at heq
      exact absurd heq.1 hT
  · intro hnr
    rw [if_pos (hTiff.mpr hnr)]

unseal Rat.add in
theorem c4_witness :
    WGraph.dsp exampleGraph "D" "A" = .ok ((⊤ : WithTop ℚ), ([] : List String)) ∧
    ¬ Reachable exampleGraph "D" "A" := by
  have hiff := @c4_dsp_unreachable exampleGraph "D" "A"
    exampleGraph_WF exampleGraph_nonneg (by decide) (by decide)
  have hr : WGraph.dsp exampleGraph "D" "A"
      = .ok ((⊤ : WithTop ℚ), ([] : List String)) := rfl
  exact ⟨hr, hiff.mp hr⟩

theorem lookupPath_map (G : String → List String) :
    ∀ (l : List String) (v : String), v ∈ l →
    lookupPath (l.map (fun x => (x, G x))) v = some (G v) := by
  intro l
  induction l with
  | nil => intro v hv; simp at hv
  | cons a t ih =>
    intro v hv
    unfold lookupPath
    rw [List.map_cons, List.find?_cons]
    by_cases hav : a = v
    · subst hav
      simp
    · have hfa : ((a, G a).1 == v) = false := beq_eq_false_iff_ne.mpr hav
      simp only [hfa]
      have hrec := ih v (by
        rcases List.mem_cons.mp hv with rfl | hvt
        · exact absurd rfl hav
        · exact hvt)
      unfold lookupPath at hrec
      exact hrec

/-- Claim C3: on a graph with non negative finite weights, for every
existing src and every vertex v, the entry for v in dsp_all(src) holds
exactly the path that dsp(src, v) returns; that path is [src] when
v = src and is empty exactly when v is unreachable from src. -/
theorem c3_dspAll_matches_dsp {g : WGraph} {src dest : String}
    (hwf : g.WF) (hnn : g.Nonneg)
    (hs : src ∈ g.vertices) (hd : dest ∈ g.vertices) :
    ∃ (dq : WithTop ℚ) (pth : List String),
      g.dsp src dest = .ok (dq, pth) ∧
      (∃ res, g.dspAll src = .ok res ∧ lookupPath res dest = some pth) ∧
      (dest = src → pth = [src]) ∧
      (pth = [] ↔ ¬ Reachable g src dest) := by
  obtain ⟨hopt, hchain, hdagree, hpagree⟩ :=
    @dsp_master g src dest hwf hnn (dspFuel g) ∅ (dspInit src)
      (dspInit_inv g src hs) (dMu_init g hwf src)
  have hTiff : (dspLoop g dest (dspFuel g) (dspInit src)).dist dest = ⊤ ↔
      ¬ Reachable g src dest := by
    constructor
    · intro hT hreach
      obtain ⟨q2, hq2⟩ := hreach
      have h1 := hopt q2 hq2
      rw [hT] at h1
      exact absurd (top_le_iff.mp h1) WithTop.coe_ne_top
    · intro hnr
      by_contra hT
      obtain ⟨A, hA, hc⟩ := hchain hT
      rcases hdd : (dspLoop g dest (dspFuel g) (dspInit src)).dist dest with _ | qd
      · exact hT hdd
      · obtain ⟨L, _, _, _, _, _, hLw⟩ := hc.toPath hA
        obtain ⟨_, hip⟩ := hLw qd hdd
        exact hnr ⟨qd, hip⟩
  have hall : g.dspAll src = .ok (g.vertices.map (fun v =>
      (v, if (dspAllLoop g (dspFuel g) (dspInit src)).dist v = ⊤ then []
          else (prevPath (dspAllLoop g (dspFuel g) (dspInit src)).prev
            (g.vertices.length + 1) v).reverse))) := by
    unfold WGraph.dspAll
    rw [if_neg (not_not_intro hs)]
  have hlook := lookupPath_map
    (fun v => if (dspAllLoop g (dspFuel g) (dspInit src)).dist v = ⊤ then []
        else (prevPath (dspAllLoop g (dspFuel g) (dspInit src)).prev
          (g.vertices.length + 1) v).reverse)
    g.vertices dest hd
  unfold WGraph.dsp
  rw [if_neg (by push_neg; exact ⟨hs, hd⟩)]
  dsimp only
  by_cases hT : (dspLoop g dest (dspFuel g) (dspInit src)).dist dest = ⊤
  · rw [if_pos hT]
    refine ⟨⊤, [], rfl, ⟨_, hall, ?_⟩, ?_, ?_⟩
    · rw [hlook]
      congr 1
      dsimp only
      rw [if_pos (hdagree.trans hT)]
    · intro heq
      subst heq
      exfalso
      have h1 := hopt 0 (IsPathLen.refl dest hs)
      rw [hT] at h1
      exact absurd (top_le_iff.mp h1) WithTop.coe_ne_top
    · exact iff_of_true rfl (hTiff.mp hT)
  · rw [if_neg hT]
    refine ⟨_, _, rfl, ⟨_, hall, ?_⟩, ?_, ?_⟩
    · rw [hlook]
      congr 1
      dsimp only
      rw [if_neg (fun hc => hT (hdagree.symm.trans hc))]
      rw [hpagree (g.vertices.length + 1)]
    · intro heq
      rw [heq] at hT ⊢
      have hself := dsp_self g src hs
      unfold WGraph.dsp at hself
      rw [if_neg (by push_neg; exact ⟨hs, hs⟩)] at hself
      dsimp only at hself
      rw [if_neg hT] at hself
      simp only [Except.ok.injEq, Prod.mk.injEq] at hself
      exact hself.2
    · obtain ⟨A, hA, hc⟩ := hchain hT
      obtain ⟨L, hLne, hLhead, hLlast, hLlen, hLpath, hLw⟩ := hc.toPath hA
      have hAcard : A.card ≤ g.vertices.length := by
        have hsub : A ⊆ g.vertices.toFinset :=
          fun x hx => List.mem_toFinset.mpr (hA x hx)
        exact le_trans (Finset.card_le_card hsub) g.vertices.toFinset_card_le
      have hfix : prevPath (dspLoop g dest (dspFuel g) (dspInit src)).prev
          (g.vertices.length + 1) dest = L := hLpath _ (by omega)
      rw [hfix]
      refine iff_of_false ?_ ?_
      · intro hc2
        exact hLne (by simpa using hc2)
      · intro hnr
        rcases hdd : (dspLoop g dest (dspFuel g) (dspInit src)).dist dest with _ | qd
        · exact hT hdd
        · obtain ⟨_, hip⟩ := hLw qd hdd
          exact hnr ⟨qd, hip⟩

unseal Rat.add in
theorem c3_witness :
    ∃ res, WGraph.dspAll exampleGraph "A" = .ok res ∧
      lookupPath res "F" = some ["A", "B", "F"] := by
  obtain ⟨dq, pth, hdsp, ⟨res, hall, hlook⟩, _, _⟩ :=
    @c3_dspAll_matches_dsp exampleGraph "A" "F"
      exampleGraph_WF exampleGraph_nonneg (by decide) (by decide)
  have hr : WGraph.dsp exampleGraph "A" "F"
      = .ok (((8 : ℚ) : WithTop ℚ), ["A", "B", "F"]) := rfl
  rw [hr] at hdsp
  simp only [Except.ok.injEq, Prod.mk.injEq] at hdsp
  refine ⟨res, hall, ?_⟩
  rw [hlook, ← hdsp.2]
